import Mathlib

/-
  Verification of the OpenClaw markdown chunker subsystem.

  JS strings are modelled as lists of characters (`Str`).  Iterative JS
  loops are embedded as fuel-based structural recursions so that every
  definition evaluates inside the kernel; each top-level wrapper supplies
  a fuel that provably suffices.  Floating point threshold comparisons
  (`x >= maxChars * 0.3`) are modelled by exact integer ratios
  (`10 * x >= 3 * maxChars`), which agree with the IEEE double
  computation on all integer inputs involved.
-/

namespace Spec2Proof

/-- Characters of a JS string, modelled as a list of characters. -/
abbrev Str := List Char

/-- Convert a Lean string literal to the model type. -/
def str (s : String) : Str := s.toList

/-- The backtick character, U+0060. -/
def bq : Char := Char.ofNat 96

/-- JS whitespace (the ASCII part of the `\s` class used by this embedding:
space, tab, LF, CR, VT, FF). -/
def isWs (c : Char) : Bool :=
  c = ' ' || c = '\t' || c = '\n' || c = '\r' || c = Char.ofNat 11 || c = Char.ofNat 12

/-- JS `text.trimStart()`. -/
def trimStart (l : Str) : Str := l.dropWhile isWs

/-- JS `text.trimEnd()`. -/
def trimEnd (l : Str) : Str := (l.reverse.dropWhile isWs).reverse

/-- JS `text.trim()`. -/
def trim (l : Str) : Str := trimEnd (trimStart l)

/-- JS `text.split("\n")`; the empty string yields `[""]`. -/
def splitLines : Str → List Str
  | [] => [[]]
  | c :: rest =>
    if c = '\n' then [] :: splitLines rest
    else
      match splitLines rest with
      | [] => [[c]]
      | l :: ls => (c :: l) :: ls

/-- `countLines` from part_008: 0 for the empty string, else the number of
newline-separated lines. -/
def countLines (text : Str) : Nat :=
  if text = [] then 0 else (splitLines text).length

end Spec2Proof

namespace Spec2Proof

/-! ## Width classifier (part_010, lines 1-244) -/

def CJK_HAIRSPACE_NUM : Nat := 10
def CJK_HAIRSPACE_DEN : Nat := 3
def HANGUL_HAIRSPACE_NUM : Nat := 11
def HANGUL_HAIRSPACE_DEN : Nat := 2
def EMOJI_HAIRSPACE_NUM : Nat := 10
def EMOJI_HAIRSPACE_DEN : Nat := 3

def isCJK (cp : Nat) : Bool :=
  (0x4e00 ≤ cp && cp ≤ 0x9fff) ||
  (0x3400 ≤ cp && cp ≤ 0x4dbf) ||
  (0xf900 ≤ cp && cp ≤ 0xfaff) ||
  (0x20000 ≤ cp && cp ≤ 0x2a6df) ||
  (0x3000 ≤ cp && cp ≤ 0x303f) ||
  (0x3040 ≤ cp && cp ≤ 0x309f) ||
  (0x30a0 ≤ cp && cp ≤ 0x30ff) ||
  (0x31f0 ≤ cp && cp ≤ 0x31ff) ||
  (0x3100 ≤ cp && cp ≤ 0x312f) ||
  (0x31a0 ≤ cp && cp ≤ 0x31bf) ||
  (0xff01 ≤ cp && cp ≤ 0xff60) ||
  (0xffe0 ≤ cp && cp ≤ 0xffe6)

def isHangul (cp : Nat) : Bool :=
  (0xac00 ≤ cp && cp ≤ 0xd7af) ||
  (0x1100 ≤ cp && cp ≤ 0x11ff) ||
  (0x3130 ≤ cp && cp ≤ 0x318f) ||
  (0xa960 ≤ cp && cp ≤ 0xa97f) ||
  (0xd7b0 ≤ cp && cp ≤ 0xd7ff)

def isEmoji (cp : Nat) : Bool :=
  (0x2600 ≤ cp && cp ≤ 0x26ff) ||
  (0x2700 ≤ cp && cp ≤ 0x27bf) ||
  (0x1f600 ≤ cp && cp ≤ 0x1f64f) ||
  (0x1f300 ≤ cp && cp ≤ 0x1f5ff) ||
  (0x1f680 ≤ cp && cp ≤ 0x1f6ff) ||
  (0x1f900 ≤ cp && cp ≤ 0x1f9ff) ||
  (0x1fa00 ≤ cp && cp ≤ 0x1fa6f) ||
  (0x1fa70 ≤ cp && cp ≤ 0x1faff) ||
  (0x1f1e0 ≤ cp && cp ≤ 0x1f1ff) ||
  cp = 0x2b50 || cp = 0x2764 || cp = 0x2615 || cp = 0x231a || cp = 0x231b ||
  cp = 0x23e9 || cp = 0x23ea || cp = 0x23f0 || cp = 0x23f3 || cp = 0x25aa ||
  cp = 0x25ab || cp = 0x25b6 || cp = 0x25c0 || cp = 0x25fb || cp = 0x25fc ||
  cp = 0x25fd || cp = 0x25fe || cp = 0x2934 || cp = 0x2935

def isZeroWidth (cp : Nat) : Bool :=
  (0x200c ≤ cp && cp ≤ 0x200f) ||
  (0xfe00 ≤ cp && cp ≤ 0xfe0f) ||
  (0x0300 ≤ cp && cp ≤ 0x036f) ||
  (0x1f3fb ≤ cp && cp ≤ 0x1f3ff) ||
  (0x1ab0 ≤ cp && cp ≤ 0x1aff) ||
  (0x1dc0 ≤ cp && cp ≤ 0x1dff) ||
  (0x20d0 ≤ cp && cp ≤ 0x20ff) ||
  (0xfe20 ≤ cp && cp ≤ 0xfe2f)

inductive CharCategory | cjk | hangul | emoji | zero | normal
deriving DecidableEq

def classifyCodePoint (cp : Nat) : CharCategory :=
  if isZeroWidth cp then .zero
  else if isHangul cp then .hangul
  else if isCJK cp then .cjk
  else if isEmoji cp then .emoji
  else .normal

/-- `countWideChars` from part_010: per-category tallies `(cjk, hangul, emoji)`. -/
def countWideChars (text : Str) : Nat × Nat × Nat :=
  text.foldl (fun acc ch =>
    let cp := ch.toNat
    match classifyCodePoint cp with
    | .cjk => (acc.1 + 1, acc.2.1, acc.2.2)
    | .hangul => (acc.1, acc.2.1 + 1, acc.2.2)
    | .emoji => (acc.1, acc.2.1, acc.2.2 + 1)
    | _ => acc) (0, 0, 0)

/-- `cellVisualWidth` from part_010: 2 per wide glyph, 0 per zero-width,
1 otherwise. -/
def cellVisualWidth (text : Str) : Nat :=
  text.foldl (fun width ch =>
    let cp := ch.toNat
    match classifyCodePoint cp with
    | .zero => width
    | .normal => width + 1
    | _ => width + 2) 0

/-- `hairspaceCount` from part_010: per-category integer ratios accumulated
with floor division. -/
def hairspaceCount (text : Str) : Nat :=
  let c := countWideChars text
  c.1 * CJK_HAIRSPACE_NUM / CJK_HAIRSPACE_DEN +
  c.2.1 * HANGUL_HAIRSPACE_NUM / HANGUL_HAIRSPACE_DEN +
  c.2.2 * EMOJI_HAIRSPACE_NUM / EMOJI_HAIRSPACE_DEN

end Spec2Proof

namespace Spec2Proof

/-! ## splitLongLine (part_008, lines 72-108) -/

/-- Index of the last whitespace character of `window`, or -1. -/
def lastWsIdx (window : Str) : Int :=
  match window.reverse.findIdx? isWs with
  | none => -1
  | some r => (window.length - 1 - r : Nat)

/-- Loop body of `splitLongLine`, with explicit fuel. -/
def splitLongLineGo (limit : Nat) (preserveWs : Bool) : Nat → Str → List Str
  | 0, remaining => if remaining.length ≠ 0 then [remaining] else []
  | fuel + 1, remaining =>
    if remaining.length > limit then
      if preserveWs then
        remaining.take limit :: splitLongLineGo limit preserveWs fuel (remaining.drop limit)
      else
        let window := remaining.take limit
        let breakIdx0 := lastWsIdx window
        let b := if breakIdx0 ≤ 0 then limit else breakIdx0.toNat
        remaining.take b :: splitLongLineGo limit preserveWs fuel (remaining.drop b)
    else if remaining.length ≠ 0 then [remaining] else []

/-- `splitLongLine` from part_008: split an over-long line, at the last
whitespace within budget (non-preserving mode) or at the raw offset
(whitespace-preserving mode, used inside fences). -/
def splitLongLine (line : Str) (maxChars : Nat) (preserveWs : Bool) : List Str :=
  let limit := max 1 maxChars
  if line.length ≤ limit then [line]
  else splitLongLineGo limit preserveWs line.length line

theorem splitLongLineGo_join (limit : Nat) (pw : Bool) (hlim : 1 ≤ limit) :
    ∀ fuel remaining, remaining.length ≤ fuel →
      (splitLongLineGo limit pw fuel remaining).flatten = remaining := by
  intro fuel
  induction fuel with
  | zero =>
    intro remaining h
    have : remaining = [] := List.eq_nil_of_length_eq_zero (Nat.le_zero.mp h)
    subst this
    simp [splitLongLineGo]
  | succ n ih =>
    intro remaining h
    rw [splitLongLineGo]
    by_cases hlen : remaining.length > limit
    · simp only [hlen, if_true]
      cases pw with
      | true =>
        simp only [if_true, List.flatten_cons]
        have hdrop : (remaining.drop limit).length ≤ n := by
          rw [List.length_drop]
          omega
        rw [ih _ hdrop, List.take_append_drop]
      | false =>
        simp only [Bool.false_eq_true, if_false, List.flatten_cons]
        set breakIdx0 := lastWsIdx (remaining.take limit) with hb
        set b := if breakIdx0 ≤ 0 then limit else breakIdx0.toNat with hbdef
        have hb1 : 1 ≤ b := by
          rw [hbdef]
          split
          · exact hlim
          · omega
        have hdrop : (remaining.drop b).length ≤ n := by
          rw [List.length_drop]
          omega
        rw [ih _ hdrop, List.take_append_drop]
    · simp only [hlen, if_false]
      by_cases hnil : remaining.length ≠ 0
      · simp [hnil]
      · simp only [ne_eq, not_not] at hnil
        have : remaining = [] := List.eq_nil_of_length_eq_zero hnil
        subst this
        simp

/-- Concatenating the segments of `splitLongLine` restores the original line,
in both modes and for every limit. -/
theorem splitLongLine_join (line : Str) (maxChars : Nat) (pw : Bool) :
    (splitLongLine line maxChars pw).flatten = line := by
  rw [splitLongLine]
  split
  · simp
  · exact splitLongLineGo_join (max 1 maxChars) pw (Nat.le_max_left 1 maxChars)
      line.length line le_rfl

end Spec2Proof

namespace Spec2Proof

/-! ## Fence lines and fence spans -/

/-- `OpenFence` from part_008: an in-progress fence while scanning. -/
structure OpenFence where
  indent : Str
  markerChar : Char
  markerLen : Nat
  openLine : Str
deriving DecidableEq

/-- `parseFenceLine` from part_008: match `FENCE_RE` = three-plus backticks or
tildes after at most three leading spaces. -/
def parseFenceLine (line : Str) : Option OpenFence :=
  let indent := line.takeWhile (· = ' ')
  if indent.length > 3 then none
  else
    match line.drop indent.length with
    | [] => none
    | c :: restTail =>
      if c = bq ∨ c = '~' then
        let run := (c :: restTail).takeWhile (· = c)
        if run.length ≥ 3 then
          some { indent := indent, markerChar := c, markerLen := run.length, openLine := line }
        else none
      else none

/-- `closeFenceLine` from part_008. -/
def closeFenceLine (f : OpenFence) : Str :=
  f.indent ++ List.replicate f.markerLen f.markerChar

/-- `closeFenceIfNeeded` from part_008. -/
def closeFenceIfNeeded (text : Str) (openFence : Option OpenFence) : Str :=
  match openFence with
  | none => text
  | some f =>
    let closeLine := closeFenceLine f
    if text = [] then closeLine
    else if text.getLast? ≠ some '\n' then text ++ '\n' :: closeLine
    else text ++ closeLine

/-- `STRUCTURAL_RE` from part_008 / structural.ts:
`^(?:#{1,6}\s|[-*+]\s|\d+[.)]\s)`. -/
def isStructuralBoundary (line : Str) : Bool :=
  (let hs := line.takeWhile (· = '#')
   decide (1 ≤ hs.length) && decide (hs.length ≤ 6) &&
     (match line.drop hs.length with
      | c :: _ => isWs c
      | [] => false)) ||
  (match line with
   | c :: d :: _ => (c = '-' || c = '*' || c = '+') && isWs d
   | _ => false) ||
  (let ds := line.takeWhile Char.isDigit
   decide (1 ≤ ds.length) &&
     (match line.drop ds.length with
      | p :: w :: _ => (p = '.' || p = ')') && isWs w
      | _ => false))

/-- `FenceSpan`: half-open range `[start, stop)` of a fenced block, including
its delimiter lines (`stop` renames the source field `end`, a Lean keyword). -/
structure FenceSpan where
  start : Nat
  stop : Nat
  indent : Str
  markerChar : Char
  markerLen : Nat
  marker : Str
  openLine : Str
deriving DecidableEq

def mkFenceSpan (s e : Nat) (f : OpenFence) : FenceSpan :=
  { start := s, stop := e, indent := f.indent, markerChar := f.markerChar,
    markerLen := f.markerLen, marker := List.replicate f.markerLen f.markerChar,
    openLine := f.openLine }

def parseFenceSpansGo (total : Nat) : List Str → Nat → Option (Nat × OpenFence) → List FenceSpan
  | [], _, none => []
  | [], _, some (s, f) => [mkFenceSpan s total f]
  | line :: rest, off, st =>
    let nextOff := off + line.length + 1
    match st, parseFenceLine line with
    | none, some f => parseFenceSpansGo total rest nextOff (some (off, f))
    | none, none => parseFenceSpansGo total rest nextOff none
    | some (s, f), some g =>
      if g.markerChar = f.markerChar ∧ g.markerLen ≥ f.markerLen then
        mkFenceSpan s (off + line.length) f :: parseFenceSpansGo total rest nextOff none
      else parseFenceSpansGo total rest nextOff (some (s, f))
    | some (s, f), none => parseFenceSpansGo total rest nextOff (some (s, f))

/-- Modelled from the spec: `parseFenceSpans` lives in `src/markdown/fences.ts`,
which is not present under `src/` (only its callers are).  Per spec §4.1 it
scans line by line; a line matching `^( {0,3})(three-plus backticks or tildes)`
toggles fence state; a later line closes only if its marker char matches and
its length is at least the opener's; an unterminated fence yields a span
running to the end of the text; spans cover the delimiter lines. -/
def parseFenceSpans (text : Str) : List FenceSpan :=
  parseFenceSpansGo text.length (splitLines text) 0 none

/-- Modelled from the spec (§4.1): true iff `index` does not fall strictly
inside any span. -/
def isSafeFenceBreak (spans : List FenceSpan) (index : Nat) : Bool :=
  !spans.any (fun s => decide (s.start < index) && decide (index < s.stop))

/-- Modelled from the spec (§4.1): the span strictly enclosing `index`, if
any; used to synthesize close/reopen lines for a forced mid-fence split. -/
def findFenceSpanAt (spans : List FenceSpan) (index : Nat) : Option FenceSpan :=
  spans.find? (fun s => decide (s.start < index) && decide (index < s.stop))

end Spec2Proof

namespace Spec2Proof

/-! ## Inline markers (part_008, lines 353-565) -/

def mBold : Str := ['*', '*']
def mUnder : Str := ['_', '_']
def mStrike : Str := ['~', '~']
def mSpoiler : Str := ['|', '|']

def INLINE_MARKERS : List Str := [mBold, mUnder, mStrike, mSpoiler]

/-- Parity tallies of the four 2-char markers. -/
structure MarkerCounts where
  bold : Nat
  under : Nat
  strike : Nat
  spoiler : Nat
deriving DecidableEq

def MarkerCounts.zero : MarkerCounts := ⟨0, 0, 0, 0⟩

def MarkerCounts.get (cs : MarkerCounts) (m : Str) : Nat :=
  if m = mBold then cs.bold
  else if m = mUnder then cs.under
  else if m = mStrike then cs.strike
  else if m = mSpoiler then cs.spoiler
  else 0

def MarkerCounts.bump (cs : MarkerCounts) (m : Str) : MarkerCounts :=
  if m = mBold then { cs with bold := cs.bold + 1 }
  else if m = mUnder then { cs with under := cs.under + 1 }
  else if m = mStrike then { cs with strike := cs.strike + 1 }
  else if m = mSpoiler then { cs with spoiler := cs.spoiler + 1 }
  else cs

/-- Scan loop of `findUnclosedMarkers` from part_008: counts marker
occurrences outside fenced code blocks and outside inline-code spans. -/
def markerScanGo (text : Str) (spans : List FenceSpan) :
    Nat → Nat → Bool → MarkerCounts → MarkerCounts
  | 0, _, _, cs => cs
  | fuel + 1, i, inInline, cs =>
    if i < text.length then
      match (if inInline then none
             else spans.find? (fun s => decide (s.start ≤ i) && decide (i < s.stop))) with
      | some s => markerScanGo text spans fuel s.stop inInline cs
      | none =>
        let ch := text.getD i ' '
        if ch = bq then markerScanGo text spans fuel (i + 1) (!inInline) cs
        else if inInline then markerScanGo text spans fuel (i + 1) inInline cs
        else if i + 1 < text.length then
          let pair : Str := [ch, text.getD (i + 1) ' ']
          if pair ∈ INLINE_MARKERS then
            markerScanGo text spans fuel (i + 2) inInline (cs.bump pair)
          else markerScanGo text spans fuel (i + 1) inInline cs
        else markerScanGo text spans fuel (i + 1) inInline cs
    else cs

/-- Marker occurrence counts of `text` outside fenced blocks and inline code,
as computed by the scan of `findUnclosedMarkers`. -/
def markerCountsOutsideCode (text : Str) : MarkerCounts :=
  markerScanGo text (parseFenceSpans text) (text.length + 1) 0 false MarkerCounts.zero

/-- `findUnclosedMarkers` from part_008: the markers of odd parity. -/
def findUnclosedMarkers (text : Str) : List Str :=
  let cs := markerCountsOutsideCode text
  INLINE_MARKERS.filter (fun m => cs.get m % 2 ≠ 0)

/-- Scan loop of `findAllMarkerPositionsOutsideCode` from part_008. -/
def markerPositionsGo (text : Str) (marker : Str) (spans : List FenceSpan) :
    Nat → Nat → Bool → List Nat → List Nat
  | 0, _, _, acc => acc
  | fuel + 1, i, inInline, acc =>
    if i < text.length then
      match (if inInline then none
             else spans.find? (fun s => decide (s.start ≤ i) && decide (i < s.stop))) with
      | some s => markerPositionsGo text marker spans fuel s.stop inInline acc
      | none =>
        let ch := text.getD i ' '
        if ch = bq then markerPositionsGo text marker spans fuel (i + 1) (!inInline) acc
        else if inInline then markerPositionsGo text marker spans fuel (i + 1) inInline acc
        else if i + 1 < text.length ∧ text.getD i ' ' = marker.getD 0 ' ' ∧
            text.getD (i + 1) ' ' = marker.getD 1 ' ' then
          markerPositionsGo text marker spans fuel (i + 2) inInline (acc ++ [i])
        else markerPositionsGo text marker spans fuel (i + 1) inInline acc
    else acc

/-- `findAllMarkerPositionsOutsideCode` from part_008. -/
def findAllMarkerPositionsOutsideCode (text : Str) (marker : Str) : List Nat :=
  markerPositionsGo text marker (parseFenceSpans text) (text.length + 1) 0 false []

/-- JS `text.slice(a, b)`. -/
def slice (text : Str) (a b : Nat) : Str := (text.take b).drop a

/-- Inner `while` of the pairing loop: advance past already-paired indexes. -/
def findNextUnpairedGo (n : Nat) (flags : List Bool) : Nat → Nat → Nat
  | 0, next => next
  | fuel + 1, next =>
    if next < n ∧ flags.getD next false then findNextUnpairedGo n flags fuel (next + 1)
    else next

/-- The self-contained-pair test of `stripOrphanedMarkerOutsideCode`
(part_008, line 527): the span between two marker positions has no newline,
is non-empty and is under 200 characters. -/
def selfContainedSpan (text marker : Str) (p q : Nat) : Bool :=
  let span := slice text (p + marker.length) q
  !span.contains '\n' && decide (span.length > 0) && decide (span.length < 200)

/-- Greedy pairing loop of `stripOrphanedMarkerOutsideCode` from part_008:
mark consecutive positions as a self-contained pair when the span between
them passes `selfContainedSpan`. -/
def pairLoopGo (text : Str) (marker : Str) (positions : List Nat) :
    Nat → Nat → List Bool → List Bool
  | 0, _, flags => flags
  | fuel + 1, idx, flags =>
    if idx < positions.length then
      if flags.getD idx false then pairLoopGo text marker positions fuel (idx + 1) flags
      else
        let next := findNextUnpairedGo positions.length flags positions.length (idx + 1)
        if next ≥ positions.length then flags
        else
          if selfContainedSpan text marker (positions.getD idx 0) (positions.getD next 0) then
            pairLoopGo text marker positions fuel (idx + 1) ((flags.set idx true).set next true)
          else pairLoopGo text marker positions fuel (idx + 1) flags
    else flags

/-- `stripOrphanedMarkerOutsideCode` from part_008: strip the first position
left unpaired after greedy pairing (fallback: the last position). -/
def stripOrphanedMarkerOutsideCode (text : Str) (marker : Str) : Str :=
  let positions := findAllMarkerPositionsOutsideCode text marker
  if positions.length = 0 ∨ positions.length % 2 = 0 then text
  else
    let flags := pairLoopGo text marker positions (positions.length + 1) 0
      (List.replicate positions.length false)
    match (List.range positions.length).find? (fun idx => !flags.getD idx false) with
    | some idx =>
      let pos := positions.getD idx 0
      text.take pos ++ text.drop (pos + marker.length)
    | none =>
      let last := positions.getD (positions.length - 1) 0
      text.take last ++ text.drop (last + marker.length)

/-- JS `text.lastIndexOf("\n")` as an integer (-1 when absent). -/
def lastNewlineIdx (text : Str) : Int :=
  match text.reverse.findIdx? (· = '\n') with
  | none => -1
  | some r => (text.length - 1 - r : Nat)

/-- `findTrailingFenceCloserPos` from part_008. -/
def findTrailingFenceCloserPos (text : Str) : Int :=
  let lastNl := lastNewlineIdx text
  if lastNl = -1 then -1
  else
    let lastLine := text.drop (lastNl.toNat + 1)
    if (parseFenceLine lastLine).isNone then -1
    else
      let spans := parseFenceSpans text
      if spans.any (fun s => decide (s.stop ≥ lastNl.toNat + 1) && decide (s.stop ≤ text.length))
      then lastNl else -1

end Spec2Proof

namespace Spec2Proof

/-! ## Rebalancers (part_008, lines 310-459) -/

/-- Forward scan of `rebalanceInlineFormatting`: find the first later chunk
with odd parity for `marker` and strip its orphaned occurrence. -/
def stripScanGo (marker : Str) : Nat → Nat → List Str → List Str
  | 0, _, adj => adj
  | fuel + 1, j, adj =>
    if j < adj.length then
      let laterUnclosed := findUnclosedMarkers (adj.getD j [])
      if marker ∈ laterUnclosed then
        adj.set j (stripOrphanedMarkerOutsideCode (adj.getD j []) marker)
      else stripScanGo marker fuel (j + 1) adj
    else adj

/-- One iteration of `rebalanceInlineFormatting`: close the unclosed markers
of chunk `i` and strip the orphaned closers from later chunks. -/
def rebalanceStepAppend (cur : Str) (unclosed : List Str) : Str :=
  let closeMarkers := unclosed.reverse.flatten
  let closerInsertPos := findTrailingFenceCloserPos cur
  if closerInsertPos ≥ 0 then
    cur.take closerInsertPos.toNat ++ closeMarkers ++ cur.drop closerInsertPos.toNat
  else cur ++ closeMarkers

/-- Main loop of `rebalanceInlineFormatting` from part_008. -/
def rebalanceGo : Nat → Nat → List Str → List Str
  | 0, _, adj => adj
  | fuel + 1, i, adj =>
    if i < adj.length - 1 then
      let cur := adj.getD i []
      let unclosed := findUnclosedMarkers cur
      if unclosed = [] then rebalanceGo fuel (i + 1) adj
      else
        let adj := adj.set i (rebalanceStepAppend cur unclosed)
        let adj := unclosed.foldl (fun adj m => stripScanGo m adj.length (i + 1) adj) adj
        rebalanceGo fuel (i + 1) adj
    else adj

/-- `rebalanceInlineFormatting` from part_008. -/
def rebalanceInlineFormatting (chunks : List Str) : List Str :=
  if chunks.length ≤ 1 then chunks
  else rebalanceGo chunks.length 0 chunks

/-- Loop of `rebalanceReasoningItalics` from part_008. -/
def italicsGo : Nat → Nat → List Str → List Str
  | 0, _, adj => adj
  | fuel + 1, i, adj =>
    if i < adj.length then
      let isLast := i = adj.length - 1
      let cur := adj.getD i []
      let needsClosing := (trimEnd cur).getLast? ≠ some '_'
      let adj := if needsClosing then adj.set i (cur ++ ['_']) else adj
      if isLast then adj
      else
        let next := adj.getD (i + 1) []
        let lwsLen := next.length - (trimStart next).length
        let nextBody := next.drop lwsLen
        let adj :=
          if nextBody.head? ≠ some '_' then
            adj.set (i + 1) (next.take lwsLen ++ '_' :: nextBody)
          else adj
        italicsGo fuel (i + 1) adj
    else adj

/-- `rebalanceReasoningItalics` from part_008: close/reopen single-underscore
italics across chunks for `"Reasoning:\n_..._"` payloads. -/
def rebalanceReasoningItalics (source : Str) (chunks : List Str) : List Str :=
  if chunks.length ≤ 1 then chunks
  else if (str "Reasoning:\n_").isPrefixOf source ∧ (trimEnd source).getLast? = some '_' then
    italicsGo chunks.length 0 chunks
  else chunks

end Spec2Proof

namespace Spec2Proof

/-! ## chunkDiscordText (part_008, lines 114-282) -/

structure ChunkState where
  chunks : List Str
  current : Str
  currentLines : Nat
  openFence : Option OpenFence
  lastParaBreakEnd : Int
  lastStructuralBoundary : Int
deriving DecidableEq

def ChunkState.init : ChunkState := ⟨[], [], 0, none, -1, -1⟩

/-- The `flush` closure of `chunkDiscordText` (part_008, lines 146-198).
The float thresholds `maxChars * 0.3` and `maxChars * 0.2` are modelled by
the exact integer comparisons `10 * pos ≥ 3 * maxChars` and
`10 * pos ≥ 2 * maxChars`. -/
def flush (maxChars : Nat) (st : ChunkState) : ChunkState :=
  if st.current = [] then st
  else if st.openFence = none ∧ 10 * st.lastParaBreakEnd ≥ 3 * (maxChars : Int) then
    let chunkContent := trimEnd (st.current.take st.lastParaBreakEnd.toNat)
    let remainder := (st.current.drop st.lastParaBreakEnd.toNat).dropWhile (· = '\n')
    { chunks := if trim chunkContent ≠ [] then st.chunks ++ [chunkContent] else st.chunks,
      current := remainder,
      currentLines := if remainder ≠ [] then countLines remainder else 0,
      openFence := st.openFence,
      lastParaBreakEnd := -1, lastStructuralBoundary := -1 }
  else if st.openFence = none ∧ 10 * st.lastStructuralBoundary ≥ 2 * (maxChars : Int) then
    let chunkContent := trimEnd (st.current.take st.lastStructuralBoundary.toNat)
    let remainder := (st.current.drop st.lastStructuralBoundary.toNat).dropWhile (· = '\n')
    { chunks := if trim chunkContent ≠ [] then st.chunks ++ [chunkContent] else st.chunks,
      current := remainder,
      currentLines := if remainder ≠ [] then countLines remainder else 0,
      openFence := st.openFence,
      lastParaBreakEnd := -1, lastStructuralBoundary := -1 }
  else
    let payload := closeFenceIfNeeded st.current st.openFence
    { chunks := if trim payload ≠ [] then st.chunks ++ [payload] else st.chunks,
      current := match st.openFence with | some f => f.openLine | none => [],
      currentLines := match st.openFence with | some _ => 1 | none => 0,
      openFence := st.openFence,
      lastParaBreakEnd := -1, lastStructuralBoundary := -1 }

/-- The inner `for (segIndex …)` loop of `chunkDiscordText`
(part_008, lines 227-251). -/
def processSegments (maxChars charLimit : Nat) (lineLimit : Option Nat) :
    List Str → Nat → ChunkState → ChunkState
  | [], _, st => st
  | seg :: rest, segIndex, st =>
    let isCont := segIndex > 0
    let delim : Str := if isCont then [] else if st.current.length > 0 then ['\n'] else []
    let addition := delim ++ seg
    let nextLen := st.current.length + addition.length
    let nextLines := st.currentLines + (if isCont then 0 else 1)
    let wouldExceedChars := nextLen > charLimit
    let wouldExceedLines := match lineLimit with | none => false | some l => nextLines > l
    let st1 := if (wouldExceedChars || wouldExceedLines) ∧ st.current.length > 0
      then flush maxChars st else st
    let st2 :=
      if st1.current.length > 0 then
        { st1 with current := st1.current ++ addition,
                   currentLines := st1.currentLines + (if isCont then 0 else 1) }
      else { st1 with current := seg, currentLines := 1 }
    processSegments maxChars charLimit lineLimit rest (segIndex + 1) st2

/-- The outer per-line body of `chunkDiscordText` (part_008, lines 200-271). -/
def processLine (maxChars : Nat) (maxLines : Option Nat) (st : ChunkState) (line : Str) :
    ChunkState :=
  let fenceInfo := parseFenceLine line
  let wasInsideFence := st.openFence.isSome
  let nextOpenFence : Option OpenFence :=
    match st.openFence, fenceInfo with
    | none, some f => some f
    | some o, some f =>
      if o.markerChar = f.markerChar ∧ f.markerLen ≥ o.markerLen then none else some o
    | o, none => o
  let reserveChars := match nextOpenFence with
    | some f => (closeFenceLine f).length + 1
    | none => 0
  let reserveLines : Nat := match nextOpenFence with | some _ => 1 | none => 0
  let effectiveMaxChars : Int := (maxChars : Int) - reserveChars
  let charLimit := if 0 < effectiveMaxChars then effectiveMaxChars.toNat else maxChars
  let lineLimit : Option Nat :=
    match maxLines with
    | none => none
    | some l => if 0 < (l : Int) - (reserveLines : Int) then some (l - reserveLines) else some l
  let prefixLen := if st.current.length > 0 then st.current.length + 1 else 0
  let segmentLimit := max 1 (charLimit - prefixLen)
  let segments := splitLongLine line segmentLimit wasInsideFence
  let st := processSegments maxChars charLimit lineLimit segments 0 st
  let st :=
    if ¬wasInsideFence ∧ trim line = [] ∧ st.current.length > 0 then
      { st with lastParaBreakEnd := (st.current.length : Int) }
    else st
  let st :=
    if ¬wasInsideFence ∧ st.current.length > 0 ∧ isStructuralBoundary line then
      let posBeforeLine : Int := (st.current.length : Int) - line.length - 1
      if posBeforeLine > 0 then { st with lastStructuralBoundary := posBeforeLine } else st
    else st
  { st with openFence := nextOpenFence }

/-- The chunking pass of `chunkDiscordText` (everything before the two
rebalancers), for a text that exceeds the size caps. -/
def chunkCore (text : Str) (maxChars : Nat) (maxLines : Option Nat) : List Str :=
  let lines := splitLines text
  let st := lines.foldl (processLine maxChars maxLines) ChunkState.init
  if st.current.length > 0 then
    let payload := closeFenceIfNeeded st.current st.openFence
    if trim payload ≠ [] then st.chunks ++ [payload] else st.chunks
  else st.chunks

/-- `alreadyOk` guard of `chunkDiscordText` (`maxLines = none` models
`Infinity`). -/
def sizeOk (text : Str) (maxChars : Nat) (maxLines : Option Nat) : Bool :=
  decide (text.length ≤ maxChars) &&
    match maxLines with
    | none => true
    | some l => decide (countLines text ≤ l)

/-- The fragments pushed by the chunking pass of `chunkDiscordText`, before
marker rebalancing (options normalised as in the source: default 2000,
minimum 1). -/
def chunkDiscordTextRaw (text : Str) (optsMaxChars optsMaxLines : Option Nat) : List Str :=
  let maxChars := max 1 (optsMaxChars.getD 2000)
  let maxLines := optsMaxLines.map (max 1)
  if text = [] then []
  else if sizeOk text maxChars maxLines then [text]
  else chunkCore text maxChars maxLines

/-- `chunkDiscordText` from part_008 (lines 114-282): the full pipeline
including `rebalanceReasoningItalics` and `rebalanceInlineFormatting`. -/
def chunkDiscordText (text : Str) (optsMaxChars optsMaxLines : Option Nat) : List Str :=
  let maxChars := max 1 (optsMaxChars.getD 2000)
  let maxLines := optsMaxLines.map (max 1)
  if text = [] then []
  else if sizeOk text maxChars maxLines then [text]
  else
    rebalanceInlineFormatting
      (rebalanceReasoningItalics text (chunkCore text maxChars maxLines))

end Spec2Proof

namespace Spec2Proof

/-! ## Fence balance measure -/

def fenceLineCountsGo : List Str → Option OpenFence → Nat × Nat → Nat × Nat
  | [], _, acc => acc
  | line :: rest, st, acc =>
    match st, parseFenceLine line with
    | none, some f => fenceLineCountsGo rest (some f) (acc.1 + 1, acc.2)
    | none, none => fenceLineCountsGo rest none acc
    | some o, some f =>
      if f.markerChar = o.markerChar ∧ f.markerLen ≥ o.markerLen then
        fenceLineCountsGo rest none (acc.1, acc.2 + 1)
      else fenceLineCountsGo rest (some o) acc
    | some o, none => fenceLineCountsGo rest (some o) acc

/-- Count of fence-opener lines and of fence-closer lines in a fragment,
under the fence semantics of the scanner (a closer matches the opener's
marker char with at least its length). -/
def fenceLineCounts (text : Str) : Nat × Nat :=
  fenceLineCountsGo (splitLines text) none (0, 0)

end Spec2Proof

namespace Spec2Proof

/-! ## Claim C1, C3, C4, C5 (counterexample), C7, C8, C10 (counterexample) -/

/-- C1: the size bound is violated by the code.  With `maxChars = 20` and the
input `"aaaaa\n\n"` followed by 32 `b`s (a paragraph boundary followed by an
over-long line), the paragraph-boundary flush appends the next segment to the
remainder without rechecking the budget, and the second emitted fragment has
26 characters, exceeding `maxChars`. -/
theorem c1_size_bound_violation :
    20 < ((chunkDiscordText (str "aaaaa\n\nbbbbbbbbbbbbbbbbbbbbbbbbbbbbbbbb")
      (some 20) none).getD 1 []).length := by decide

/-- C3: fence balance is violated by the code.  With `maxChars = 4` the
fence-opening line of `"```ab\nxx\nyy"` is itself split, and the first
emitted fragment is `"```a"`: one fence-opener line, no closer. -/
theorem c3_fence_balance_violation :
    (fenceLineCounts ((chunkDiscordText (str "```ab\nxx\nyy") (some 4) none).getD 0 [])).1 ≠
      (fenceLineCounts ((chunkDiscordText (str "```ab\nxx\nyy") (some 4) none).getD 0 [])).2 := by
  decide

/-- C4 counterexample: the empty text satisfies both size caps but
`chunkDiscordText` returns `[]`, not `[text]`. -/
theorem c4_noop_counterexample :
    (str "").length ≤ 2000 ∧ chunkDiscordText (str "") none none ≠ [str ""] := by decide

/-- C4 amended: for every non-empty text within both (normalised) size caps,
`chunkDiscordText` returns exactly `[text]`, unchanged. -/
theorem c4_noop_amended (text : Str) (mc ml : Option Nat) (hne : text ≠ [])
    (hok : sizeOk text (max 1 (mc.getD 2000)) (ml.map (max 1)) = true) :
    chunkDiscordText text mc ml = [text] := by
  unfold chunkDiscordText
  simp [hne, hok]

theorem c4_noop_witness : chunkDiscordText (str "hi") none none = [str "hi"] :=
  c4_noop_amended (str "hi") none none (by decide) (by decide)

/-- C5 counterexample: a whitespace-only input that satisfies the size caps
is returned unchanged as a single fragment, not as `[]`. -/
theorem c5_empty_counterexample :
    trim (str " ") = [] ∧ chunkDiscordText (str " ") none none ≠ [] := by decide

/-- C7: `hairspaceCount` equals the floor-division formula over
`countWideChars` (which excludes zero-width code points), and the spec's
example literals hold. -/
theorem c7_hairspace_counts :
    (∀ t : Str, hairspaceCount t =
      (countWideChars t).1 * 10 / 3 + (countWideChars t).2.1 * 11 / 2 +
        (countWideChars t).2.2 * 10 / 3) ∧
    hairspaceCount (str "中") = 3 ∧ hairspaceCount (str "中国") = 6 ∧
    hairspaceCount (str "한") = 5 ∧ hairspaceCount (str "한국") = 11 ∧
    hairspaceCount (str "🎉🎊🎈") = 10 ∧ cellVisualWidth (str "한국 (Korea)") = 12 :=
  ⟨fun _ => rfl, by decide, by decide, by decide, by decide, by decide, by decide⟩

/-- C8: concatenating the segments returned by `splitLongLine` yields exactly
the original line, in both the whitespace-preserving and the non-preserving
mode and for every character limit. -/
theorem c8_content_preservation (line : Str) (maxChars : Nat) (pw : Bool) :
    (splitLongLine line maxChars pw).flatten = line :=
  splitLongLine_join line maxChars pw

/-- C10 counterexample: the marker rebalancer can strip a fragment that
consists solely of the orphaned marker down to the empty string, so
`chunkDiscordText` can emit an empty fragment. -/
theorem c10_nonempty_counterexample :
    [] ∈ chunkDiscordText (str "**a\n**") (some 3) none := by decide

end Spec2Proof

namespace Spec2Proof

/-! ## C10 amended: the chunking pass only pushes non-whitespace fragments -/

theorem mem_pushGuard {l : List Str} {x f : Str} (h : ∀ g ∈ l, trim g ≠ [])
    (hf : f ∈ (if trim x ≠ [] then l ++ [x] else l)) : trim f ≠ [] := by
  split at hf
  · rcases List.mem_append.mp hf with h1 | h1
    · exact h f h1
    · rename_i hx
      rw [List.mem_singleton.mp h1]
      exact hx
  · exact h f hf

theorem flush_trim (mc : Nat) (st : ChunkState) (h : ∀ f ∈ st.chunks, trim f ≠ []) :
    ∀ f ∈ (flush mc st).chunks, trim f ≠ [] := by
  intro f hf
  unfold flush at hf
  split at hf
  · exact h f hf
  · split at hf
    · exact mem_pushGuard h hf
    · split at hf
      · exact mem_pushGuard h hf
      · exact mem_pushGuard h hf

theorem ChunkState.chunks_ite (c : Prop) [Decidable c] (a b : ChunkState) :
    (if c then a else b).chunks = if c then a.chunks else b.chunks := by
  split <;> rfl

theorem mem_ite_or {c : Prop} [Decidable c] {x y : List Str} {f : Str}
    (hf : f ∈ if c then x else y) : f ∈ x ∨ f ∈ y := by
  split at hf
  · exact Or.inl hf
  · exact Or.inr hf

theorem processSegments_trim (mc cl : Nat) (ll : Option Nat) :
    ∀ segs segIndex st, (∀ f ∈ st.chunks, trim f ≠ []) →
      ∀ f ∈ (processSegments mc cl ll segs segIndex st).chunks, trim f ≠ [] := by
  intro segs
  induction segs with
  | nil => intro _ st h; exact h
  | cons seg rest ih =>
    intro segIndex st h
    simp only [processSegments]
    apply ih
    intro f hf
    simp only [ChunkState.chunks_ite, ite_self] at hf
    rcases mem_ite_or hf with hf1 | hf1
    · exact flush_trim mc st h f hf1
    · exact h f hf1

theorem processLine_trim (mc : Nat) (ml : Option Nat) (st : ChunkState) (line : Str)
    (h : ∀ f ∈ st.chunks, trim f ≠ []) :
    ∀ f ∈ (processLine mc ml st line).chunks, trim f ≠ [] := by
  intro f hf
  simp only [processLine, ChunkState.chunks_ite, ite_self] at hf
  exact processSegments_trim _ _ _ _ _ _ h f hf

theorem foldl_processLine_trim (mc : Nat) (ml : Option Nat) :
    ∀ (lines : List Str) (st : ChunkState), (∀ f ∈ st.chunks, trim f ≠ []) →
      ∀ f ∈ (lines.foldl (processLine mc ml) st).chunks, trim f ≠ [] := by
  intro lines
  induction lines with
  | nil => intro st h; exact h
  | cons line rest ih =>
    intro st h
    exact ih (processLine mc ml st line) (processLine_trim mc ml st line h)

/-- C10 amended: every fragment pushed by the chunking pass (the `flush` and
final-payload steps, before the marker rebalancers) has non-empty trimmed
content. -/
theorem c10_nonempty_amended (text : Str) (maxChars : Nat) (maxLines : Option Nat) (f : Str)
    (hf : f ∈ chunkCore text maxChars maxLines) : trim f ≠ [] := by
  simp only [chunkCore] at hf
  have hbase : ∀ g ∈ ((splitLines text).foldl (processLine maxChars maxLines)
      ChunkState.init).chunks, trim g ≠ [] := by
    apply foldl_processLine_trim
    intro g hg
    simp [ChunkState.init] at hg
  split at hf
  · exact mem_pushGuard hbase hf
  · exact hbase f hf

theorem c10_nonempty_witness : trim (str "ab") ≠ [] :=
  c10_nonempty_amended (str "ab\ncd") 2 none (str "ab") (by decide)

end Spec2Proof

namespace Spec2Proof

/-! ## C5 amended: whitespace-only inputs -/

/-- Every character of `l` is JS whitespace. -/
def allWs (l : Str) : Prop := ∀ c ∈ l, isWs c = true

theorem apply_ite_prop {α : Sort _} {P : α → Prop} {c : Prop} [Decidable c] {a b : α}
    (ha : P a) (hb : P b) : P (if c then a else b) := by
  split
  · exact ha
  · exact hb

theorem allWs_subset {l₁ l₂ : Str} (h : l₁ ⊆ l₂) (h₂ : allWs l₂) : allWs l₁ :=
  fun c hc => h₂ c (h hc)

theorem trimEnd_subset (l : Str) : trimEnd l ⊆ l := by
  intro c hc
  unfold trimEnd at hc
  rw [List.mem_reverse] at hc
  have := (List.dropWhile_sublist (l := l.reverse) (p := isWs)).subset hc
  rwa [List.mem_reverse] at this

theorem allWs_trim_eq_nil {l : Str} (h : allWs l) : trim l = [] := by
  unfold trim trimStart
  have h1 : l.dropWhile isWs = [] := List.dropWhile_eq_nil_iff.mpr fun c hc => h c hc
  rw [h1]
  rfl

theorem allWs_of_trim_eq_nil {l : Str} (h : trim l = []) : allWs l := by
  intro c hc
  by_contra hcw
  unfold trim trimEnd trimStart at h
  rw [List.reverse_eq_nil_iff, List.dropWhile_eq_nil_iff] at h
  have hmem : c ∈ l.dropWhile isWs := by
    rcases List.mem_append.mp
      ((List.takeWhile_append_dropWhile (p := isWs) (l := l)) ▸ hc) with h1 | h1
    · exact absurd (List.mem_takeWhile_imp h1) hcw
    · exact h1
  exact hcw (h c (List.mem_reverse.mpr hmem))

theorem parseFenceLine_of_allWs {line : Str} (h : allWs line) : parseFenceLine line = none := by
  simp only [parseFenceLine]
  split
  · rfl
  · rename_i hlen
    split
    · rfl
    · rename_i c tail heq
      have hc : c ∈ line := by
        have : c ∈ line.drop (line.takeWhile (fun x => decide (x = ' '))).length := by
          rw [heq]
          exact List.mem_cons_self c tail
        exact List.drop_subset _ line this
      have hw := h c hc
      have hne : ¬(c = bq ∨ c = '~') := by
        intro hcon
        rcases hcon with h2 | h2
        · subst h2; exact absurd hw (by decide)
        · subst h2; exact absurd hw (by decide)
      rw [if_neg hne]

theorem mem_splitLines_chars : ∀ (text : Str) (l : Str), l ∈ splitLines text →
    ∀ c ∈ l, c ∈ text := by
  intro text
  induction text with
  | nil =>
    intro l hl c hc
    simp [splitLines] at hl
    subst hl
    simp at hc
  | cons a rest ih =>
    intro l hl c hc
    rw [splitLines] at hl
    by_cases ha : a = '\n'
    · rw [if_pos ha] at hl
      rcases List.mem_cons.mp hl with h1 | h1
      · subst h1; simp at hc
      · exact List.mem_cons_of_mem a (ih l h1 c hc)
    · rw [if_neg ha] at hl
      rcases hsplit : splitLines rest with _ | ⟨l0, ls⟩
      · rw [hsplit] at hl
        simp at hl
        subst hl
        simp at hc
        subst hc
        exact List.mem_cons_self _ _
      · rw [hsplit] at hl
        rcases List.mem_cons.mp hl with h1 | h1
        · subst h1
          rcases List.mem_cons.mp hc with h2 | h2
          · subst h2; exact List.mem_cons_self _ _
          · have : l0 ∈ splitLines rest := by rw [hsplit]; exact List.mem_cons_self l0 ls
            exact List.mem_cons_of_mem a (ih l0 this c h2)
        · have : l ∈ splitLines rest := by rw [hsplit]; exact List.mem_cons_of_mem l0 h1
          exact List.mem_cons_of_mem a (ih l this c hc)

theorem splitLongLine_chars {line : Str} {mc : Nat} {pw : Bool} {seg : Str}
    (hseg : seg ∈ splitLongLine line mc pw) : seg ⊆ line := by
  intro c hc
  rw [← splitLongLine_join line mc pw]
  exact List.mem_flatten.mpr ⟨seg, hseg, hc⟩

/-- Invariant for whitespace-only inputs: no chunk pushed, current all
whitespace, no open fence. -/
def WsInv (st : ChunkState) : Prop :=
  st.chunks = [] ∧ allWs st.current ∧ st.openFence = none

theorem flush_ws (mc : Nat) (st : ChunkState) (h : WsInv st) : WsInv (flush mc st) := by
  obtain ⟨hch, hcur, hof⟩ := h
  unfold flush
  split
  · exact ⟨hch, hcur, hof⟩
  · split
    · refine ⟨?_, ?_, hof⟩
      · have : trim (trimEnd (st.current.take st.lastParaBreakEnd.toNat)) = [] :=
          allWs_trim_eq_nil (allWs_subset
            (fun c hc => List.take_subset _ _ (trimEnd_subset _ hc)) hcur)
        simp [this, hch]
      · exact allWs_subset (fun c hc =>
          List.drop_subset _ _ ((List.dropWhile_sublist _).subset hc)) hcur
    · split
      · refine ⟨?_, ?_, hof⟩
        · have : trim (trimEnd (st.current.take st.lastStructuralBoundary.toNat)) = [] :=
            allWs_trim_eq_nil (allWs_subset
              (fun c hc => List.take_subset _ _ (trimEnd_subset _ hc)) hcur)
          simp [this, hch]
        · exact allWs_subset (fun c hc =>
            List.drop_subset _ _ ((List.dropWhile_sublist _).subset hc)) hcur
      · rw [hof]
        have hpay : closeFenceIfNeeded st.current none = st.current := rfl
        refine ⟨?_, ?_, rfl⟩
        · rw [hpay]
          simp [allWs_trim_eq_nil hcur, hch]
        · intro c hc
          simp at hc

theorem allWs_nil : allWs [] := fun c hc => absurd hc (List.not_mem_nil c)

theorem allWs_nl : allWs ['\n'] := by
  intro c hc
  simp at hc
  subst hc
  rfl

theorem wsStep (seg delim : Str) (st1 : ChunkState) (h1 : WsInv st1)
    (hseg : allWs seg) (hdelim : allWs delim) (lines1 lines2 : Nat) (c : Prop) [Decidable c] :
    WsInv (if c then
        { st1 with current := st1.current ++ (delim ++ seg), currentLines := lines1 }
      else { st1 with current := seg, currentLines := lines2 }) := by
  obtain ⟨hch, hcur, hof⟩ := h1
  apply apply_ite_prop
  · refine ⟨hch, ?_, hof⟩
    intro ch hc
    rcases List.mem_append.mp hc with h2 | h2
    · exact hcur ch h2
    · rcases List.mem_append.mp h2 with h3 | h3
      · exact hdelim ch h3
      · exact hseg ch h3
  · exact ⟨hch, hseg, hof⟩

theorem processSegments_ws (mc cl : Nat) (ll : Option Nat) :
    ∀ (segs : List Str), (∀ seg ∈ segs, allWs seg) →
      ∀ (segIndex : Nat) (st : ChunkState), WsInv st →
        WsInv (processSegments mc cl ll segs segIndex st) := by
  intro segs
  induction segs with
  | nil => intro _ _ st h; exact h
  | cons seg rest ih =>
    intro hsegs segIndex st h
    simp only [processSegments]
    apply ih (fun s hs => hsegs s (List.mem_cons_of_mem seg hs))
    exact wsStep seg _ _ (apply_ite_prop (flush_ws mc st h) h)
      (hsegs seg (List.mem_cons_self seg rest))
      (apply_ite_prop allWs_nil (apply_ite_prop allWs_nl allWs_nil)) _ _ _

end Spec2Proof

namespace Spec2Proof

theorem ChunkState.chunks_setPara (s : ChunkState) (p : Int) :
    ({ s with lastParaBreakEnd := p }).chunks = s.chunks := rfl

theorem ChunkState.chunks_setStruct (s : ChunkState) (p : Int) :
    ({ s with lastStructuralBoundary := p }).chunks = s.chunks := rfl

theorem ChunkState.chunks_setFence (s : ChunkState) (o : Option OpenFence) :
    ({ s with openFence := o }).chunks = s.chunks := rfl

theorem ChunkState.current_ite (c : Prop) [Decidable c] (a b : ChunkState) :
    (if c then a else b).current = if c then a.current else b.current := by
  split <;> rfl

theorem ChunkState.current_setPara (s : ChunkState) (p : Int) :
    ({ s with lastParaBreakEnd := p }).current = s.current := rfl

theorem ChunkState.current_setStruct (s : ChunkState) (p : Int) :
    ({ s with lastStructuralBoundary := p }).current = s.current := rfl

theorem ChunkState.current_setFence (s : ChunkState) (o : Option OpenFence) :
    ({ s with openFence := o }).current = s.current := rfl

theorem ChunkState.openFence_setFence (s : ChunkState) (o : Option OpenFence) :
    ({ s with openFence := o }).openFence = o := rfl

theorem processLine_ws (mc : Nat) (ml : Option Nat) (st : ChunkState) (line : Str)
    (hline : allWs line) (h : WsInv st) : WsInv (processLine mc ml st line) := by
  obtain ⟨hch, hcur, hof⟩ := h
  have hfence : parseFenceLine line = none := parseFenceLine_of_allWs hline
  have hsps : ∀ (cl : Nat) (ll : Option Nat) (lim : Nat) (pw : Bool),
      WsInv (processSegments mc cl ll (splitLongLine line lim pw) 0 st) := by
    intro cl ll lim pw
    exact processSegments_ws mc cl ll _
      (fun seg hs c hc => hline c (splitLongLine_chars hs hc)) 0 st ⟨hch, hcur, hof⟩
  simp only [processLine, hfence, hof, Option.isSome_none]
  refine ⟨?_, ?_, ?_⟩
  · simp only [ChunkState.chunks_setFence, ChunkState.chunks_ite, ChunkState.chunks_setPara,
      ChunkState.chunks_setStruct, ite_self]
    exact (hsps _ _ _ _).1
  · simp only [ChunkState.current_setFence, ChunkState.current_ite, ChunkState.current_setPara,
      ChunkState.current_setStruct, ite_self]
    exact (hsps _ _ _ _).2.1
  · simp only [ChunkState.openFence_setFence]

end Spec2Proof

namespace Spec2Proof

theorem foldl_processLine_ws (mc : Nat) (ml : Option Nat) :
    ∀ (lines : List Str), (∀ l ∈ lines, allWs l) →
      ∀ (st : ChunkState), WsInv st → WsInv (lines.foldl (processLine mc ml) st) := by
  intro lines
  induction lines with
  | nil => intro _ st h; exact h
  | cons line rest ih =>
    intro hlines st h
    exact ih (fun l hl => hlines l (List.mem_cons_of_mem line hl))
      (processLine mc ml st line)
      (processLine_ws mc ml st line (hlines line (List.mem_cons_self line rest)) h)

theorem chunkCore_ws (text : Str) (mc : Nat) (ml : Option Nat)
    (h : allWs text) : chunkCore text mc ml = [] := by
  have hinv : WsInv ((splitLines text).foldl (processLine mc ml) ChunkState.init) := by
    apply foldl_processLine_ws
    · intro l hl c hc
      exact h c (mem_splitLines_chars text l hl c hc)
    · exact ⟨rfl, allWs_nil, rfl⟩
  obtain ⟨hch, hcur, hof⟩ := hinv
  simp only [chunkCore]
  split
  · rw [hof]
    have : closeFenceIfNeeded
        ((splitLines text).foldl (processLine mc ml) ChunkState.init).current none =
        ((splitLines text).foldl (processLine mc ml) ChunkState.init).current := rfl
    rw [this, hch]
    simp [allWs_trim_eq_nil hcur]
  · exact hch

/-- C5 amended: the empty text yields `[]`; a whitespace-only text that
exceeds the size caps (so the chunking pass runs) also yields `[]`; a
whitespace-only text within the caps is returned unchanged as `[text]` by
the no-op path. -/
theorem c5_empty_amended :
    (∀ mc ml, chunkDiscordText [] mc ml = []) ∧
    (∀ (text : Str) (mc ml : Option Nat), trim text = [] →
      sizeOk text (max 1 (mc.getD 2000)) (ml.map (max 1)) = false →
      chunkDiscordText text mc ml = []) ∧
    (∀ (text : Str) (mc ml : Option Nat), trim text = [] → text ≠ [] →
      sizeOk text (max 1 (mc.getD 2000)) (ml.map (max 1)) = true →
      chunkDiscordText text mc ml = [text]) := by
  refine ⟨fun mc ml => by simp [chunkDiscordText], ?_, ?_⟩
  · intro text mc ml htrim hsz
    by_cases hnil : text = []
    · subst hnil
      simp [chunkDiscordText]
    · have hcore : chunkCore text (max 1 (mc.getD 2000)) (ml.map (max 1)) = [] :=
        chunkCore_ws text _ _ (allWs_of_trim_eq_nil htrim)
      simp [chunkDiscordText, hnil, hsz, hcore, rebalanceReasoningItalics,
        rebalanceInlineFormatting]
  · intro text mc ml _ hnil hsz
    simp [chunkDiscordText, hnil, hsz]

theorem c5_empty_witness : chunkDiscordText (str " \n \n ") (some 2) none = [] :=
  c5_empty_amended.2.1 (str " \n \n ") (some 2) none (by decide) (by decide)

end Spec2Proof

namespace Spec2Proof

/-! ## C6: greedy pairing characterisation -/

/-- Greedy pairing of consecutive positions, as a recursion: a pair is
marked when `cond` accepts it, and the remaining positions are processed in
order. -/
def specFlags (cond : Nat → Nat → Bool) : List Nat → List Bool
  | [] => []
  | [_] => [false]
  | p :: q :: rest =>
    if cond p q then true :: true :: specFlags cond rest
    else false :: specFlags cond (q :: rest)

/-- The first position left unpaired by greedy pairing. -/
def firstUnpairedSpec (cond : Nat → Nat → Bool) : List Nat → Option Nat
  | [] => none
  | [p] => some p
  | p :: q :: rest => if cond p q then firstUnpairedSpec cond rest else some p

theorem twoStep_induction {P : List Nat → Prop} (h0 : P []) (h1 : ∀ p, P [p])
    (h2 : ∀ p q rest, P rest → P (q :: rest) → P (p :: q :: rest)) : ∀ ps, P ps := by
  have key : ∀ n ps, List.length ps ≤ n → P ps := by
    intro n
    induction n with
    | zero =>
      intro ps h
      rw [List.length_eq_zero.mp (Nat.le_zero.mp h)]
      exact h0
    | succ n ih =>
      intro ps h
      match ps with
      | [] => exact h0
      | [p] => exact h1 p
      | p :: q :: rest =>
        simp only [List.length_cons] at h
        exact h2 p q rest (ih rest (by omega)) (ih (q :: rest) (by simp; omega))
  exact fun ps => key ps.length ps le_rfl

theorem specFlags_length (cond : Nat → Nat → Bool) :
    ∀ ps, (specFlags cond ps).length = ps.length := by
  apply twoStep_induction
  · rfl
  · intro p; rfl
  · intro p q rest ih ih2
    rw [specFlags]
    split
    · simp [ih]
    · simpa using ih2

theorem firstUnpairedSpec_isSome (cond : Nat → Nat → Bool) :
    ∀ ps, ps.length % 2 = 1 → (firstUnpairedSpec cond ps).isSome = true := by
  apply twoStep_induction
  · intro h; simp at h
  · intro p _; rfl
  · intro p q rest ih _ h
    rw [firstUnpairedSpec]
    split
    · exact ih (by simp at h ⊢; omega)
    · rfl

/-- First position whose flag is `false`, paired value-wise. -/
def firstFalseVal : List Nat → List Bool → Option Nat
  | p :: _, false :: _ => some p
  | _ :: ps, true :: bs => firstFalseVal ps bs
  | _, _ => none

theorem specFlags_firstFalse (cond : Nat → Nat → Bool) :
    ∀ ps, firstFalseVal ps (specFlags cond ps) = firstUnpairedSpec cond ps := by
  apply twoStep_induction
  · rfl
  · intro p; rfl
  · intro p q rest ih ih2
    rw [specFlags, firstUnpairedSpec]
    split
    · simpa [firstFalseVal] using ih
    · rfl

theorem range_find_firstFalseVal :
    ∀ (ps : List Nat) (flags : List Bool), flags.length = ps.length →
      ((List.range ps.length).find? (fun idx => !flags.getD idx false)).map
          (fun idx => ps.getD idx 0) = firstFalseVal ps flags := by
  intro ps
  induction ps with
  | nil =>
    intro flags h
    rw [List.length_eq_zero.mp h]
    rfl
  | cons p ps ih =>
    intro flags h
    match flags with
    | [] => simp at h
    | b :: bs =>
      simp only [List.length_cons] at h
      rw [List.length_cons, List.range_succ_eq_map, List.find?_cons]
      cases b with
      | false => simp [firstFalseVal]
      | true =>
        simp only [List.getD_cons_zero, Bool.not_true]
        rw [List.find?_map, Option.map_map]
        have hpred : ((fun idx => !(true :: bs).getD idx false) ∘ Nat.succ)
            = fun idx => !bs.getD idx false := by
          funext idx
          simp [List.getD_cons_succ]
        have hcomp :
            ((fun idx => (p :: ps).getD idx 0) ∘ Nat.succ) = fun idx => ps.getD idx 0 := by
          funext idx
          simp [List.getD_cons_succ]
        rw [hpred, hcomp, ih bs (Nat.succ_injective h)]
        rfl

end Spec2Proof

namespace Spec2Proof

theorem getD_set_self {l : List Bool} {i : Nat} {x : Bool} (h : i < l.length) :
    (l.set i x).getD i false = x := by
  rw [List.getD_eq_getElem _ _ (by simpa using h)]
  exact List.getElem_set_self (by simpa using h)

theorem getD_set_ne {l : List Bool} {i j : Nat} {x : Bool} (h : i ≠ j) :
    (l.set i x).getD j false = l.getD j false := by
  simp [List.getD_eq_getElem?_getD, List.getElem?_set_ne h]

theorem take_set_of_le {l : List Bool} {k j : Nat} {x : Bool} (h : j ≤ k) :
    (l.set k x).take j = l.take j := by
  apply List.ext_getElem?
  intro n
  rw [List.getElem?_take, List.getElem?_take]
  split
  · exact List.getElem?_set_ne (by omega)
  · rfl

theorem take_succ_getD {l : List Bool} {j : Nat} (h : j < l.length) :
    l.take (j + 1) = l.take j ++ [l.getD j false] := by
  rw [List.getD_eq_getElem _ _ h]
  exact (List.take_concat_get' l j h).symm

theorem getD_replicate_false {n k : Nat} : (List.replicate n false).getD k false = false := by
  rcases Nat.lt_or_ge k n with h | h
  · rw [List.getD_eq_getElem _ _ (by simpa using h)]
    exact List.getElem_replicate _ _
  · rw [List.getD_eq_getElem?_getD, List.getElem?_eq_none (by simpa using h)]
    rfl

theorem findNextUnpairedGo_of_false {n : Nat} {flags : List Bool} {next : Nat}
    (h : flags.getD next false = false) :
    ∀ fuel, findNextUnpairedGo n flags fuel next = next := by
  intro fuel
  cases fuel with
  | zero => rfl
  | succ f =>
    rw [findNextUnpairedGo]
    rw [if_neg]
    intro hcon
    rw [h] at hcon
    exact absurd hcon.2 (by simp)

theorem pairLoopGo_spec (text marker : Str) (ps : List Nat) :
    ∀ fuel j flags, flags.length = ps.length →
      (∀ k, j ≤ k → flags.getD k false = false) →
      ps.length + 1 - j ≤ fuel →
      pairLoopGo text marker ps fuel j flags =
        flags.take j ++ specFlags (selfContainedSpan text marker) (ps.drop j) := by
  intro fuel
  induction fuel using Nat.strong_induction_on with
  | _ fuel ih =>
    intro j flags h1 h2 h3
    cases fuel with
    | zero =>
      have hj : ps.length < j := by omega
      rw [pairLoopGo, List.take_of_length_le (by omega), List.drop_eq_nil_of_le (by omega)]
      simp [specFlags]
    | succ f =>
      by_cases hj : j < ps.length
      · rw [pairLoopGo, if_pos hj]
        have hfj : flags.getD j false = false := h2 j le_rfl
        rw [hfj]
        simp only [Bool.false_eq_true, if_false]
        rw [findNextUnpairedGo_of_false (h2 (j + 1) (by omega)) ps.length]
        have hdropj : ps.drop j = ps.getD j 0 :: ps.drop (j + 1) := by
          rw [List.getD_eq_getElem _ _ hj]
          exact List.drop_eq_getElem_cons hj
        by_cases hj1 : j + 1 ≥ ps.length
        · rw [if_pos hj1]
          have hdropj1 : ps.drop (j + 1) = [] := List.drop_eq_nil_of_le (by omega)
          rw [hdropj, hdropj1, specFlags]
          rw [← hfj, ← take_succ_getD (by omega), List.take_of_length_le (by omega)]
        · rw [if_neg hj1]
          push_neg at hj1
          have hdropj1 : ps.drop (j + 1) = ps.getD (j + 1) 0 :: ps.drop (j + 2) := by
            rw [List.getD_eq_getElem _ _ hj1]
            exact List.drop_eq_getElem_cons hj1
          rw [hdropj, hdropj1, specFlags]
          by_cases hc : selfContainedSpan text marker (ps.getD j 0) (ps.getD (j + 1) 0) = true
          · rw [if_pos hc, if_pos hc]
            cases f with
            | zero => omega
            | succ f2 =>
              rw [pairLoopGo, if_pos hj1]
              have hset1 : (((flags.set j true).set (j + 1) true)).getD (j + 1) false = true :=
                getD_set_self (by rw [List.length_set]; omega)
              rw [hset1, if_pos rfl]
              rw [ih f2 (by omega) (j + 2) ((flags.set j true).set (j + 1) true)
                (by simp [List.length_set, h1])
                (fun k hk => by
                  rw [getD_set_ne (by omega), getD_set_ne (by omega)]
                  exact h2 k (by omega))
                (by omega)]
              have htake : ((flags.set j true).set (j + 1) true).take (j + 2) =
                  flags.take j ++ [true, true] := by
                rw [take_succ_getD (by rw [List.length_set, List.length_set]; omega)]
                rw [take_succ_getD (by rw [List.length_set, List.length_set]; omega)]
                rw [take_set_of_le (by omega), take_set_of_le (by omega)]
                rw [hset1]
                rw [getD_set_ne (by omega), getD_set_self (by omega)]
                simp
              rw [htake]
              simp
          · rw [if_neg hc, if_neg hc]
            rw [ih f (by omega) (j + 1) flags h1 (fun k hk => h2 k (by omega)) (by omega)]
            rw [take_succ_getD (by omega), hfj, hdropj1]
            simp
      · rw [pairLoopGo, if_neg hj, List.take_of_length_le (by omega),
          List.drop_eq_nil_of_le (by omega)]
        simp [specFlags]

end Spec2Proof

namespace Spec2Proof

/-- The pairing condition as the claim words it, with the two extra
whitespace-adjacency requirements (character after the opener and character
before the closer non-whitespace) that the code does not check. -/
def claimSelfContainedPair (text marker : Str) (p q : Nat) : Bool :=
  selfContainedSpan text marker p q &&
  !isWs (text.getD (p + marker.length) ' ') && !isWs (text.getD (q - 1) ' ')

/-- Orphan stripping as the claim describes it: greedy pairing under
`claimSelfContainedPair`, then removal of the first unpaired position. -/
def claimStripOrphaned (text marker : Str) : Str :=
  let positions := findAllMarkerPositionsOutsideCode text marker
  if positions.length = 0 ∨ positions.length % 2 = 0 then text
  else
    match firstUnpairedSpec (claimSelfContainedPair text marker) positions with
    | some pos => text.take pos ++ text.drop (pos + marker.length)
    | none => text

/-- C6 counterexample: on `"** a ** x **"` the code pairs the first two
positions (span `" a "`, whitespace-adjacent) and strips the last
occurrence, while the claim's whitespace conditions reject that pair and
strip the first occurrence. -/
theorem c6_pairing_counterexample :
    stripOrphanedMarkerOutsideCode (str "** a ** x **") mBold ≠
      claimStripOrphaned (str "** a ** x **") mBold := by decide

/-- C6 amended: two adjacent positions are greedily paired exactly when the
span between them contains no newline, is non-empty and is under 200
characters (no whitespace-adjacency requirement), and the first position
left unpaired is the occurrence removed. -/
theorem c6_pairing_amended (text marker : Str) :
    stripOrphanedMarkerOutsideCode text marker =
      (let positions := findAllMarkerPositionsOutsideCode text marker
       if positions.length = 0 ∨ positions.length % 2 = 0 then text
       else
         match firstUnpairedSpec (selfContainedSpan text marker) positions with
         | some pos => text.take pos ++ text.drop (pos + marker.length)
         | none => text) := by
  simp only [stripOrphanedMarkerOutsideCode]
  by_cases hg : (findAllMarkerPositionsOutsideCode text marker).length = 0 ∨
      (findAllMarkerPositionsOutsideCode text marker).length % 2 = 0
  · rw [if_pos hg, if_pos hg]
  · rw [if_neg hg, if_neg hg]
    set ps := findAllMarkerPositionsOutsideCode text marker with hps
    have hflags : pairLoopGo text marker ps (ps.length + 1) 0 (List.replicate ps.length false) =
        specFlags (selfContainedSpan text marker) ps := by
      rw [pairLoopGo_spec text marker ps (ps.length + 1) 0 _
        (by simp) (fun k _ => getD_replicate_false) (by omega)]
      simp
    rw [hflags]
    have hodd : ps.length % 2 = 1 := by
      push_neg at hg
      omega
    have hbridge := range_find_firstFalseVal ps (specFlags (selfContainedSpan text marker) ps)
      (specFlags_length _ ps)
    rw [specFlags_firstFalse] at hbridge
    rcases hfind : (List.range ps.length).find?
        (fun idx => !(specFlags (selfContainedSpan text marker) ps).getD idx false)
      with _ | idx
    · rw [hfind] at hbridge
      simp only [Option.map_none'] at hbridge
      have hsome := firstUnpairedSpec_isSome (selfContainedSpan text marker) ps hodd
      rw [← hbridge] at hsome
      simp at hsome
    · rw [hfind] at hbridge
      simp only [Option.map_some'] at hbridge
      rw [← hbridge]

end Spec2Proof

namespace Spec2Proof

/-! ## EmbeddedBlockChunker (part_010, lines 547-1059) -/

inductive BreakPref | paragraph | newline | sentence
deriving DecidableEq

/-- `BlockReplyChunking` from part_010. -/
structure BlockReplyChunking where
  minChars : Nat
  maxChars : Nat
  breakPreference : Option BreakPref
  flushOnParagraph : Bool

/-- `FenceSplit` from part_010. -/
structure FenceSplit where
  closeFenceLine : Str
  reopenFenceLine : Str
deriving DecidableEq

/-- `BreakResult` from part_010. -/
structure BreakResult where
  index : Int
  fenceSplit : Option FenceSplit
deriving DecidableEq

/-- `ParagraphBreak` from part_010. -/
structure ParagraphBreak where
  index : Nat
  length : Nat
deriving DecidableEq

/-- `isTableRow` from structural.ts: `^\s*\|`. -/
def isTableRow (line : Str) : Bool := (line.dropWhile isWs).head? = some '|'

/-- `isFenceOpener` from structural.ts: `^ {0,3}(backticks{3,}|~{3,})`, the
same acceptance as `FENCE_RE` whose trailing group is unconstrained. -/
def isFenceOpener (line : Str) : Bool := (parseFenceLine line).isSome

/-- JS `l.indexOf(c, from)`. -/
def charIdxFrom (l : Str) (c : Char) (start : Nat) : Int :=
  match (l.drop start).findIdx? (· = c) with
  | none => -1
  | some r => (start + r : Nat)

/-- A `"\n\n"` match starting at position `i`. -/
def pairNlAt (l : Str) (i : Nat) : Bool :=
  decide (i + 1 < l.length) && l.getD i ' ' = '\n' && l.getD (i + 1) ' ' = '\n'

/-- JS `l.indexOf("\n\n", from)`. -/
def pairNlIdxFrom (l : Str) (start : Nat) : Int :=
  match (List.range l.length).find? (fun i => decide (start ≤ i) && pairNlAt l i) with
  | none => -1
  | some i => i

/-- JS `l.lastIndexOf("\n\n", upTo)` (with the default `upTo` being the
string length). -/
def pairNlIdxLe (l : Str) (upTo : Int) : Int :=
  match ((List.range l.length).filter
      (fun i => pairNlAt l i && decide ((i : Int) ≤ max 0 upTo))).getLast? with
  | none => -1
  | some i => i

/-- JS `l.lastIndexOf(c, upTo)`. -/
def charIdxLe (l : Str) (c : Char) (upTo : Int) : Int :=
  match ((List.range l.length).filter
      (fun i => l.getD i ' ' = c && decide ((i : Int) ≤ max 0 upTo))).getLast? with
  | none => -1
  | some i => i

/-- `#isStructuralNewlineBreak` from part_010. -/
def isStructuralNewlineBreak (buffer : Str) (newlineIdx : Nat) : Bool :=
  let afterNewline := newlineIdx + 1
  if afterNewline ≥ buffer.length then false
  else
    let nextLineEnd := charIdxFrom buffer '\n' afterNewline
    let nextLine := if nextLineEnd = -1 then buffer.drop afterNewline
      else slice buffer afterNewline nextLineEnd.toNat
    isStructuralBoundary nextLine

/-- `#isInsideTableRun` from part_010. -/
def isInsideTableRun (buffer : Str) (newlineIdx : Nat) : Bool :=
  let beforeStart := charIdxLe buffer '\n' ((newlineIdx : Int) - 1)
  let lineBefore := slice buffer (if beforeStart = -1 then 0 else beforeStart.toNat + 1) newlineIdx
  let afterStart := newlineIdx + 1
  if afterStart ≥ buffer.length then false
  else
    let afterEnd := charIdxFrom buffer '\n' afterStart
    let lineAfter := if afterEnd = -1 then buffer.drop afterStart
      else slice buffer afterStart afterEnd.toNat
    isTableRow lineBefore && isTableRow lineAfter

/-- `#isContinuationNewlineBreak` from part_010. -/
def isContinuationNewlineBreak (buffer : Str) (newlineIdx : Nat) : Bool :=
  let afterStart := newlineIdx + 1
  if afterStart ≥ buffer.length then false
  else
    let nextEnd := charIdxFrom buffer '\n' afterStart
    let nextLine := if nextEnd = -1 then buffer.drop afterStart
      else slice buffer afterStart nextEnd.toNat
    if trim nextLine = [] then false
    else if isStructuralBoundary nextLine then false
    else if isFenceOpener nextLine then false
    else if isTableRow nextLine then false
    else true

/-- Candidate admissibility shared by the paragraph-break loops of
`#pickBreakIndex` and `#pickSoftBreakIndex`. -/
def paraCandOk (buffer : Str) (minChars : Nat) (spans : List FenceSpan) (c : Int) : Bool :=
  !decide (c < (minChars : Int)) && !(decide (c < 0) || decide (c ≥ (buffer.length : Int))) &&
    isSafeFenceBreak spans c.toNat

/-- Backward `"\n\n"` loop of `#pickBreakIndex` (paragraph preference). -/
def backParagraphPass (buffer window : Str) (minChars : Nat) (spans : List FenceSpan) :
    Nat → Int → Option Nat
  | 0, _ => none
  | fuel + 1, pIdx =>
    if pIdx ≥ (minChars : Int) then
      if paraCandOk buffer minChars spans pIdx then some pIdx.toNat
      else if paraCandOk buffer minChars spans (pIdx + 1) then some (pIdx + 1).toNat
      else backParagraphPass buffer window minChars spans fuel (pairNlIdxLe window (pIdx - 1))
    else none

/-- Backward newline loop of `#pickBreakIndex`, parametrised by the pass
condition. -/
def backNewlinePass (window : Str) (minChars : Nat) (cond : Nat → Bool) :
    Nat → Int → Option Nat
  | 0, _ => none
  | fuel + 1, nIdx =>
    if nIdx ≥ (minChars : Int) then
      if cond nIdx.toNat then some nIdx.toNat
      else backNewlinePass window minChars cond fuel (charIdxLe window '\n' (nIdx - 1))
    else none

/-- Forward `"\n\n"` loop of `#pickSoftBreakIndex`. -/
def fwdParagraphPass (buffer : Str) (minChars : Nat) (spans : List FenceSpan) :
    Nat → Int → Option Nat
  | 0, _ => none
  | fuel + 1, pIdx =>
    if pIdx ≠ -1 then
      if paraCandOk buffer minChars spans pIdx then some pIdx.toNat
      else if paraCandOk buffer minChars spans (pIdx + 1) then some (pIdx + 1).toNat
      else fwdParagraphPass buffer minChars spans fuel (pairNlIdxFrom buffer (pIdx.toNat + 2))
    else none

/-- Forward newline loop of `#pickSoftBreakIndex`, parametrised by the pass
condition. -/
def fwdNewlinePass (buffer : Str) (minChars : Nat) (cond : Nat → Bool) :
    Nat → Int → Option Nat
  | 0, _ => none
  | fuel + 1, nIdx =>
    if nIdx ≠ -1 then
      if decide ((minChars : Int) ≤ nIdx) && cond nIdx.toNat then some nIdx.toNat
      else fwdNewlinePass buffer minChars cond fuel (charIdxFrom buffer '\n' (nIdx.toNat + 1))
    else none

/-- Sentence-break search (`[.!?]` followed by whitespace or end): the last
safe candidate at or beyond the minimum. -/
def sentenceSearch (w : Str) (minChars : Nat) (spans : List FenceSpan) : Option Nat :=
  match ((List.range w.length).filter (fun at0 =>
      (w.getD at0 ' ' = '.' || w.getD at0 ' ' = '!' || w.getD at0 ' ' = '?') &&
      (decide (at0 + 1 = w.length) || isWs (w.getD (at0 + 1) ' ')) &&
      decide ((minChars : Int) ≤ (at0 : Int)) && isSafeFenceBreak spans (at0 + 1))).getLast? with
  | none => none
  | some at0 => some (at0 + 1)

/-- Hard whitespace fallback of `#pickBreakIndex`: the last safe whitespace
position at or beyond the minimum. -/
def whitespaceSearch (w : Str) (minChars : Nat) (spans : List FenceSpan) : Option Nat :=
  ((List.range w.length).filter
    (fun i => decide (minChars ≤ i) && isWs (w.getD i ' ') && isSafeFenceBreak spans i)).getLast?

end Spec2Proof

namespace Spec2Proof

/-- Pass chain of `#pickBreakIndex` from part_010 (lines 874-1027), with the
window, limits, spans and preference as explicit parameters. -/
def pickBreakIndexCore (buffer window : Str) (minChars maxChars : Nat)
    (fenceSpans : List FenceSpan) (preference : BreakPref) (allowOverflow : Bool) :
    BreakResult :=
  match (if preference = BreakPref.paragraph then
      backParagraphPass buffer window minChars fenceSpans (window.length + 1)
        (pairNlIdxLe window window.length)
    else none) with
  | some i => ⟨(i : Int), none⟩
  | none =>
  match (if preference = BreakPref.paragraph ∨ preference = BreakPref.newline then
      backNewlinePass window minChars (fun idx =>
          isSafeFenceBreak fenceSpans idx && !isInsideTableRun buffer idx &&
          isStructuralNewlineBreak buffer idx) (window.length + 1)
        (charIdxLe window '\n' window.length)
    else none) with
  | some i => ⟨(i : Int), none⟩
  | none =>
  match (if preference = BreakPref.paragraph ∨ preference = BreakPref.newline then
      backNewlinePass window minChars (fun idx =>
          isSafeFenceBreak fenceSpans idx && !isInsideTableRun buffer idx &&
          !isContinuationNewlineBreak buffer idx) (window.length + 1)
        (charIdxLe window '\n' window.length)
    else none) with
  | some i => ⟨(i : Int), none⟩
  | none =>
  match (if preference ≠ BreakPref.newline then sentenceSearch window minChars fenceSpans
    else none) with
  | some i => ⟨(i : Int), none⟩
  | none =>
  if allowOverflow ∧ buffer.length < maxChars * 2 then ⟨-1, none⟩
  else
  match (if preference = BreakPref.paragraph ∨ preference = BreakPref.newline then
      backNewlinePass window minChars (fun idx =>
          isSafeFenceBreak fenceSpans idx && !isInsideTableRun buffer idx)
        (window.length + 1) (charIdxLe window '\n' window.length)
    else none) with
  | some i => ⟨(i : Int), none⟩
  | none =>
  match (if preference = BreakPref.paragraph ∨ preference = BreakPref.newline then
      backNewlinePass window minChars (fun idx => isSafeFenceBreak fenceSpans idx)
        (window.length + 1) (charIdxLe window '\n' window.length)
    else none) with
  | some i => ⟨(i : Int), none⟩
  | none =>
  if preference = BreakPref.newline ∧ buffer.length < maxChars then ⟨-1, none⟩
  else
  match whitespaceSearch window minChars fenceSpans with
  | some i => ⟨(i : Int), none⟩
  | none =>
    if buffer.length ≥ maxChars then
      if isSafeFenceBreak fenceSpans maxChars then ⟨(maxChars : Int), none⟩
      else
        match findFenceSpanAt fenceSpans maxChars with
        | some fence => ⟨(maxChars : Int), some ⟨fence.indent ++ fence.marker, fence.openLine⟩⟩
        | none => ⟨(maxChars : Int), none⟩
    else ⟨-1, none⟩

/-- `#pickBreakIndex` from part_010: backward multi-pass break search over a
window that widens to 2x `maxChars` when overflow is allowed. -/
def pickBreakIndex (ck : BlockReplyChunking) (buffer : Str) (minCharsOverride : Option Nat)
    (allowOverflow : Bool) : BreakResult :=
  let minChars := max 1 (minCharsOverride.getD ck.minChars)
  let maxChars := max minChars ck.maxChars
  let hardMax := maxChars * 2
  if buffer.length < minChars then ⟨-1, none⟩
  else
    let windowEnd := min (if allowOverflow ∧ buffer.length > maxChars then hardMax else maxChars)
      buffer.length
    pickBreakIndexCore buffer (buffer.take windowEnd) minChars maxChars
      (parseFenceSpans buffer) (ck.breakPreference.getD BreakPref.paragraph) allowOverflow

/-- `#pickSoftBreakIndex` from part_010 (lines 766-872): forward multi-pass
break search used by the forced drain of a buffer within `maxChars`. -/
def pickSoftBreakIndex (ck : BlockReplyChunking) (buffer : Str)
    (minCharsOverride : Option Nat) : BreakResult :=
  let minChars := max 1 (minCharsOverride.getD ck.minChars)
  if buffer.length < minChars then ⟨-1, none⟩
  else
    let fenceSpans := parseFenceSpans buffer
    let preference := ck.breakPreference.getD BreakPref.paragraph
    match (if preference = BreakPref.paragraph then
        fwdParagraphPass buffer minChars fenceSpans (buffer.length + 1) (pairNlIdxFrom buffer 0)
      else none) with
    | some i => ⟨(i : Int), none⟩
    | none =>
    match (if preference = BreakPref.paragraph ∨ preference = BreakPref.newline then
        fwdNewlinePass buffer minChars (fun idx =>
            isSafeFenceBreak fenceSpans idx && !isInsideTableRun buffer idx &&
            isStructuralNewlineBreak buffer idx) (buffer.length + 1) (charIdxFrom buffer '\n' 0)
      else none) with
    | some i => ⟨(i : Int), none⟩
    | none =>
    match (if preference = BreakPref.paragraph ∨ preference = BreakPref.newline then
        fwdNewlinePass buffer minChars (fun idx =>
            isSafeFenceBreak fenceSpans idx && !isInsideTableRun buffer idx &&
            !isContinuationNewlineBreak buffer idx) (buffer.length + 1) (charIdxFrom buffer '\n' 0)
      else none) with
    | some i => ⟨(i : Int), none⟩
    | none =>
    match (if preference ≠ BreakPref.newline then sentenceSearch buffer minChars fenceSpans
      else none) with
    | some i => ⟨(i : Int), none⟩
    | none =>
    match (if preference = BreakPref.paragraph ∨ preference = BreakPref.newline then
        fwdNewlinePass buffer minChars (fun idx =>
            isSafeFenceBreak fenceSpans idx && !isInsideTableRun buffer idx)
          (buffer.length + 1) (charIdxFrom buffer '\n' 0)
      else none) with
    | some i => ⟨(i : Int), none⟩
    | none =>
    match (if preference = BreakPref.paragraph ∨ preference = BreakPref.newline then
        fwdNewlinePass buffer minChars (fun idx => isSafeFenceBreak fenceSpans idx)
          (buffer.length + 1) (charIdxFrom buffer '\n' 0)
      else none) with
    | some i => ⟨(i : Int), none⟩
    | none => ⟨-1, none⟩

/-- `stripLeadingNewlines` from part_010. -/
def stripLeadingNewlines (v : Str) : Str := v.dropWhile (· = '\n')

/-- Length of a `\n[\t ]*\n+` match starting at `i`, if any. -/
def paraBreakLenAt (buffer : Str) (i : Nat) : Option Nat :=
  if buffer.getD i ' ' = '\n' ∧ i < buffer.length then
    let s := ((buffer.drop (i + 1)).takeWhile (fun c => c = '\t' ∨ c = ' ')).length
    let nl := ((buffer.drop (i + 1 + s)).takeWhile (· = '\n')).length
    if nl ≥ 1 then some (1 + s + nl) else none
  else none

/-- `findNextParagraphBreak` from part_010: the first safe `\n[\t ]*\n+`
match at or after `startIndex`. -/
def findNextParagraphBreakGo (buffer : Str) (spans : List FenceSpan) :
    Nat → Nat → Option ParagraphBreak
  | 0, _ => none
  | fuel + 1, i =>
    if i < buffer.length then
      match paraBreakLenAt buffer i with
      | some len =>
        if isSafeFenceBreak spans i then some ⟨i, len⟩
        else findNextParagraphBreakGo buffer spans fuel (i + len)
      | none => findNextParagraphBreakGo buffer spans fuel (i + 1)
    else none

def findNextParagraphBreak (buffer : Str) (spans : List FenceSpan)
    (startIndex : Nat := 0) : Option ParagraphBreak :=
  findNextParagraphBreakGo buffer spans (buffer.length + 1) startIndex

/-- `#emitBreakResult` from part_010: `(some chunk, buffer)` when a chunk is
emitted, `(none, buffer)` when the loop should continue without emitting. -/
def emitBreakResult (br : BreakResult) (buffer : Str) : Option Str × Str :=
  if br.index ≤ 0 then (none, buffer)
  else
    let rawChunk := buffer.take br.index.toNat
    if (trim rawChunk).length = 0 then
      (none, trimStart (stripLeadingNewlines (buffer.drop br.index.toNat)))
    else
      match br.fenceSplit with
      | some fs =>
        let closeFence := if rawChunk.getLast? = some '\n' then fs.closeFenceLine ++ ['\n']
          else '\n' :: (fs.closeFenceLine ++ ['\n'])
        let reopenFence := if fs.reopenFenceLine.getLast? = some '\n' then fs.reopenFenceLine
          else fs.reopenFenceLine ++ ['\n']
        (some (rawChunk ++ closeFence), reopenFence ++ buffer.drop br.index.toNat)
      | none =>
        let nextStart := if br.index.toNat < buffer.length ∧ isWs (buffer.getD br.index.toNat ' ')
          then br.index.toNat + 1 else br.index.toNat
        (some rawChunk, stripLeadingNewlines (buffer.drop nextStart))

/-- `#drainParagraphs` from part_010 (used when `flushOnParagraph` is set). -/
def drainParagraphsGo (ck : BlockReplyChunking) (maxChars : Nat) :
    Nat → Str → List Str → List Str × Str
  | 0, buffer, acc => (acc, buffer)
  | fuel + 1, buffer, acc =>
    if buffer.length > 0 then
      let fenceSpans := parseFenceSpans buffer
      match findNextParagraphBreak buffer fenceSpans 0 with
      | some pb =>
        if pb.index > maxChars then
          if buffer.length ≥ maxChars then
            let br := pickBreakIndex ck buffer (some 1) false
            if br.index > 0 then
              match emitBreakResult br buffer with
              | (some chunk, buffer2) => drainParagraphsGo ck maxChars fuel buffer2 (acc ++ [chunk])
              | (none, buffer2) => drainParagraphsGo ck maxChars fuel buffer2 acc
            else (acc, buffer)
          else (acc, buffer)
        else
          let chunk := buffer.take pb.index
          let acc2 := if (trim chunk).length > 0 then acc ++ [chunk] else acc
          drainParagraphsGo ck maxChars fuel
            (stripLeadingNewlines (buffer.drop (pb.index + pb.length))) acc2
      | none =>
        if buffer.length ≥ maxChars then
          let br := pickBreakIndex ck buffer (some 1) false
          if br.index > 0 then
            match emitBreakResult br buffer with
            | (some chunk, buffer2) => drainParagraphsGo ck maxChars fuel buffer2 (acc ++ [chunk])
            | (none, buffer2) => drainParagraphsGo ck maxChars fuel buffer2 acc
          else (acc, buffer)
        else (acc, buffer)
    else (acc, buffer)

/-- While-loop of `drain` from part_010. -/
def drainGo (ck : BlockReplyChunking) (force : Bool) : Nat → Str → List Str → List Str × Str
  | 0, buffer, acc => (acc, buffer)
  | fuel + 1, buffer, acc =>
    let minChars := max 1 ck.minChars
    let maxChars := max minChars ck.maxChars
    if buffer.length ≥ minChars ∨ (force ∧ buffer.length > 0) then
      let breakResult :=
        if force ∧ buffer.length ≤ maxChars then pickSoftBreakIndex ck buffer (some 1)
        else pickBreakIndex ck buffer (if force then some 1 else none) (!force)
      if breakResult.index ≤ 0 then
        if force then (acc ++ [buffer], []) else (acc, buffer)
      else
        match emitBreakResult breakResult buffer with
        | (none, buffer2) => drainGo ck force fuel buffer2 acc
        | (some chunk, buffer2) =>
          if buffer2.length < minChars ∧ ¬force then (acc ++ [chunk], buffer2)
          else if buffer2.length < maxChars ∧ ¬force then (acc ++ [chunk], buffer2)
          else drainGo ck force fuel buffer2 (acc ++ [chunk])
    else (acc, buffer)

/-- `EmbeddedBlockChunker.drain` from part_010 (lines 601-651), with the
buffer passed and returned explicitly: returns the emitted chunks and the
remaining buffer. -/
def drain (ck : BlockReplyChunking) (force : Bool) (buffer : Str) : List Str × Str :=
  let minChars := max 1 ck.minChars
  let maxChars := max minChars ck.maxChars
  if ck.flushOnParagraph ∧ ¬force then drainParagraphsGo ck maxChars (buffer.length + 1) buffer []
  else if buffer.length < minChars ∧ ¬force then ([], buffer)
  else if force ∧ buffer.length ≤ maxChars then
    (if (trim buffer).length > 0 then [buffer] else [], [])
  else drainGo ck force (buffer.length + 1) buffer []

end Spec2Proof

namespace Spec2Proof

/-! ## C9: positivity of every pickBreakIndex return site -/

theorem backParagraphPass_pos {buffer window : Str} {minChars : Nat} {spans : List FenceSpan}
    (hm : 1 ≤ minChars) :
    ∀ fuel pIdx i, backParagraphPass buffer window minChars spans fuel pIdx = some i →
      1 ≤ i := by
  intro fuel
  induction fuel with
  | zero => intro pIdx i h; simp [backParagraphPass] at h
  | succ f ih =>
    intro pIdx i h
    rw [backParagraphPass] at h
    split at h
    · split at h
      · rename_i hcand
        simp only [Option.some.injEq] at h
        subst h
        simp only [paraCandOk, Bool.and_eq_true, Bool.not_eq_true', decide_eq_false_iff_not,
          not_lt] at hcand
        omega
      · split at h
        · rename_i hcand
          simp only [Option.some.injEq] at h
          subst h
          simp only [paraCandOk, Bool.and_eq_true, Bool.not_eq_true', decide_eq_false_iff_not,
            not_lt] at hcand
          omega
        · exact ih _ _ h
    · simp at h

theorem backNewlinePass_pos {window : Str} {minChars : Nat} {cond : Nat → Bool}
    (hm : 1 ≤ minChars) :
    ∀ fuel nIdx i, backNewlinePass window minChars cond fuel nIdx = some i → 1 ≤ i := by
  intro fuel
  induction fuel with
  | zero => intro nIdx i h; simp [backNewlinePass] at h
  | succ f ih =>
    intro nIdx i h
    rw [backNewlinePass] at h
    split at h
    · rename_i hge
      split at h
      · simp only [Option.some.injEq] at h
        subst h
        omega
      · exact ih _ _ h
    · simp at h

theorem sentenceSearch_pos {w : Str} {minChars : Nat} {spans : List FenceSpan} {i : Nat}
    (h : sentenceSearch w minChars spans = some i) : 1 ≤ i := by
  unfold sentenceSearch at h
  split at h
  · simp at h
  · simp only [Option.some.injEq] at h
    omega

theorem whitespaceSearch_pos {w : Str} {minChars : Nat} {spans : List FenceSpan} {i : Nat}
    (hm : 1 ≤ minChars) (h : whitespaceSearch w minChars spans = some i) : 1 ≤ i := by
  unfold whitespaceSearch at h
  have hmem := List.mem_of_mem_getLast? h
  rw [List.mem_filter] at hmem
  have := hmem.2
  simp only [Bool.and_eq_true, decide_eq_true_eq] at this
  omega

end Spec2Proof


namespace Spec2Proof

theorem optionIf_pos {c : Prop} [Decidable c] {o : Option Nat} {i : Nat} {P : Nat → Prop}
    (h : (if c then o else none) = some i) (ho : ∀ j, o = some j → P j) : P i := by
  split at h
  · exact ho i h
  · simp at h

theorem pickBreakIndexCore_pos (buffer window : Str) (mc MC : Nat) (spans : List FenceSpan)
    (hmc : 1 ≤ mc) (hMC : mc ≤ MC) (hbig : MC * 2 ≤ buffer.length) :
    0 < (pickBreakIndexCore buffer window mc MC spans BreakPref.paragraph true).index := by
  unfold pickBreakIndexCore
  split
  · rename_i i h
    have := optionIf_pos h (fun j hj => backParagraphPass_pos hmc _ _ j hj)
    simp only [BreakResult.index]
    omega
  · split
    · rename_i i h
      have := optionIf_pos h (fun j hj => backNewlinePass_pos hmc _ _ j hj)
      simp only [BreakResult.index]
      omega
    · split
      · rename_i i h
        have := optionIf_pos h (fun j hj => backNewlinePass_pos hmc _ _ j hj)
        simp only [BreakResult.index]
        omega
      · split
        · rename_i i h
          have := optionIf_pos h (fun j hj => sentenceSearch_pos hj)
          simp only [BreakResult.index]
          omega
        · rw [if_neg (by intro hcon; omega)]
          split
          · rename_i i h
            have := optionIf_pos h (fun j hj => backNewlinePass_pos hmc _ _ j hj)
            simp only [BreakResult.index]
            omega
          · split
            · rename_i i h
              have := optionIf_pos h (fun j hj => backNewlinePass_pos hmc _ _ j hj)
              simp only [BreakResult.index]
              omega
            · rw [if_neg (by intro hcon; exact absurd hcon.1 (by decide))]
              split
              · rename_i i h
                have := whitespaceSearch_pos hmc h
                simp only [BreakResult.index]
                omega
              · rw [if_pos (by omega)]
                split
                · simp only [BreakResult.index]
                  omega
                · split
                  · simp only [BreakResult.index]
                    omega
                  · simp only [BreakResult.index]
                    omega

end Spec2Proof

namespace Spec2Proof

theorem pickBreakIndexCore_none (buffer window : Str) (mc MC : Nat) (spans : List FenceSpan)
    (hwithin : buffer.length < MC * 2)
    (hpara : backParagraphPass buffer window mc spans (window.length + 1)
      (pairNlIdxLe window window.length) = none)
    (hpass1 : backNewlinePass window mc (fun idx =>
        isSafeFenceBreak spans idx && !isInsideTableRun buffer idx &&
        isStructuralNewlineBreak buffer idx) (window.length + 1)
      (charIdxLe window '\n' window.length) = none)
    (hpass2 : backNewlinePass window mc (fun idx =>
        isSafeFenceBreak spans idx && !isInsideTableRun buffer idx &&
        !isContinuationNewlineBreak buffer idx) (window.length + 1)
      (charIdxLe window '\n' window.length) = none)
    (hsent : sentenceSearch window mc spans = none) :
    pickBreakIndexCore buffer window mc MC spans BreakPref.paragraph true = ⟨-1, none⟩ := by
  unfold pickBreakIndexCore
  rw [if_pos rfl, hpara, if_pos (Or.inl rfl), hpass1, if_pos (Or.inl rfl), hpass2,
    if_pos (by decide), hsent, if_pos (by refine ⟨?_, hwithin⟩; trivial)]

theorem pickBreakIndex_eq_core_overflow (ck : BlockReplyChunking) (buffer : Str)
    (hover : max (max 1 ck.minChars) ck.maxChars < buffer.length)
    (hwithin : buffer.length < max (max 1 ck.minChars) ck.maxChars * 2) :
    pickBreakIndex ck buffer none true =
      pickBreakIndexCore buffer buffer (max 1 ck.minChars)
        (max (max 1 ck.minChars) ck.maxChars) (parseFenceSpans buffer)
        (ck.breakPreference.getD BreakPref.paragraph) true := by
  simp only [pickBreakIndex, Option.getD_none]
  rw [if_neg (by omega)]
  congr 1
  rw [if_pos (by refine ⟨?_, hover⟩; trivial), Nat.min_eq_right (by omega), List.take_length]

theorem pickBreakIndex_eq_core_any (ck : BlockReplyChunking) (buffer : Str)
    (allowO : Bool) (minO : Option Nat)
    (h : ¬ buffer.length < max 1 (minO.getD ck.minChars)) :
    pickBreakIndex ck buffer minO allowO =
      pickBreakIndexCore buffer
        (buffer.take (min (if allowO ∧
            buffer.length > max (max 1 (minO.getD ck.minChars)) ck.maxChars then
          max (max 1 (minO.getD ck.minChars)) ck.maxChars * 2
        else max (max 1 (minO.getD ck.minChars)) ck.maxChars) buffer.length))
        (max 1 (minO.getD ck.minChars)) (max (max 1 (minO.getD ck.minChars)) ck.maxChars)
        (parseFenceSpans buffer) (ck.breakPreference.getD BreakPref.paragraph) allowO := by
  simp only [pickBreakIndex]
  rw [if_neg h]

end Spec2Proof

namespace Spec2Proof

theorem drain_overflow_no_emit (ck : BlockReplyChunking) (buffer : Str)
    (hfp : ck.flushOnParagraph = false)
    (hmin : max 1 ck.minChars ≤ buffer.length)
    (hpick : pickBreakIndex ck buffer none true = ⟨-1, none⟩) :
    drain ck false buffer = ([], buffer) := by
  unfold drain
  rw [if_neg (by simp [hfp])]
  rw [if_neg (by intro h; exact absurd h.1 (by omega))]
  rw [if_neg (by intro h; exact absurd h.1 (by simp))]
  rw [drainGo]
  rw [if_pos (Or.inl hmin)]
  simp only [Bool.false_eq_true, if_false, Bool.not_false, false_and]
  rw [hpick]
  rw [if_pos (by decide)]

/-- C9: in a non-forced drain with the default paragraph preference, when
the buffer exceeds `maxChars` and none of the clean-break searches (safe
paragraph break, structural newline, non-continuation newline, sentence
break at or beyond the minimum) finds a break, no chunk is emitted while the
buffer is under two times `maxChars`; once it reaches two times `maxChars`,
`pickBreakIndex` returns a positive break (the hard whitespace or byte-cut
fallback fires). -/
theorem c9_overflow_confirmed (ck : BlockReplyChunking) (buffer : Str)
    (hpref : ck.breakPreference.getD BreakPref.paragraph = BreakPref.paragraph)
    (hfp : ck.flushOnParagraph = false)
    (hmin : max 1 ck.minChars ≤ buffer.length)
    (hover : max (max 1 ck.minChars) ck.maxChars < buffer.length)
    (hpara : backParagraphPass buffer buffer (max 1 ck.minChars) (parseFenceSpans buffer)
      (buffer.length + 1) (pairNlIdxLe buffer buffer.length) = none)
    (hpass1 : backNewlinePass buffer (max 1 ck.minChars) (fun idx =>
        isSafeFenceBreak (parseFenceSpans buffer) idx && !isInsideTableRun buffer idx &&
        isStructuralNewlineBreak buffer idx) (buffer.length + 1)
      (charIdxLe buffer '\n' buffer.length) = none)
    (hpass2 : backNewlinePass buffer (max 1 ck.minChars) (fun idx =>
        isSafeFenceBreak (parseFenceSpans buffer) idx && !isInsideTableRun buffer idx &&
        !isContinuationNewlineBreak buffer idx) (buffer.length + 1)
      (charIdxLe buffer '\n' buffer.length) = none)
    (hsent : sentenceSearch buffer (max 1 ck.minChars) (parseFenceSpans buffer) = none) :
    (buffer.length < max (max 1 ck.minChars) ck.maxChars * 2 →
      drain ck false buffer = ([], buffer)) ∧
    (max (max 1 ck.minChars) ck.maxChars * 2 ≤ buffer.length →
      0 < (pickBreakIndex ck buffer none true).index) := by
  constructor
  · intro hwithin
    apply drain_overflow_no_emit ck buffer hfp hmin
    rw [pickBreakIndex_eq_core_overflow ck buffer hover hwithin, hpref]
    exact pickBreakIndexCore_none buffer buffer _ _ _ hwithin hpara hpass1 hpass2 hsent
  · intro hbig
    have hgd : (none : Option Nat).getD ck.minChars = ck.minChars := rfl
    rw [pickBreakIndex_eq_core_any ck buffer true none (by rw [hgd]; omega), hpref, hgd]
    exact pickBreakIndexCore_pos buffer _ _ _ _ (Nat.le_max_left 1 _)
      (Nat.le_max_left _ _) hbig

theorem c9_overflow_witness :
    drain ⟨1, 10, none, false⟩ false (str "aaaaaaaaaaaaaaa") = ([], str "aaaaaaaaaaaaaaa") :=
  (c9_overflow_confirmed ⟨1, 10, none, false⟩ (str "aaaaaaaaaaaaaaa") (by decide) rfl
    (by decide) (by decide) (by decide) (by decide) (by decide) (by decide)).1 (by decide)

end Spec2Proof

namespace Spec2Proof

/-! ## C2: marker parity of the rebalanced fragments -/

/-- No backtick and no tilde anywhere in the string: no inline code, no
fence delimiter and no strikethrough marker can occur. -/
abbrev NoBT (l : Str) : Prop := ∀ c ∈ l, c ≠ bq ∧ c ≠ '~'

theorem noBT_subset {l₁ l₂ : Str} (h : l₁ ⊆ l₂) (h₂ : NoBT l₂) : NoBT l₁ :=
  fun c hc => h₂ c (h hc)

theorem noBT_append {l₁ l₂ : Str} (h₁ : NoBT l₁) (h₂ : NoBT l₂) : NoBT (l₁ ++ l₂) := by
  intro c hc
  rcases List.mem_append.mp hc with h | h
  · exact h₁ c h
  · exact h₂ c h

theorem noBT_nil : NoBT [] := fun c hc => absurd hc (List.not_mem_nil c)

/-- The plain greedy marker scan over a text with no fence spans and no
inline code: at each doubled marker character, count it and skip two. -/
def plainScan : Str → MarkerCounts → MarkerCounts
  | [], cs => cs
  | [_], cs => cs
  | a :: b :: rest, cs =>
    if [a, b] ∈ INLINE_MARKERS then plainScan rest (cs.bump [a, b])
    else plainScan (b :: rest) cs

theorem markerScanGo_plain (text : Str) (hbt : ∀ c ∈ text, c ≠ bq) :
    ∀ (fuel i : Nat) (cs : MarkerCounts), text.length ≤ i + fuel →
      markerScanGo text [] fuel i false cs = plainScan (text.drop i) cs := by
  intro fuel
  induction fuel with
  | zero =>
    intro i cs h
    rw [markerScanGo, List.drop_eq_nil_of_le (by omega)]
    rfl
  | succ fuel ih =>
    intro i cs h
    rw [markerScanGo]
    by_cases hi : i < text.length
    · rw [if_pos hi]
      obtain ⟨a, t, hdrop⟩ : ∃ a t, text.drop i = a :: t := by
        cases hd : text.drop i with
        | nil =>
          have := List.drop_eq_nil_iff.mp hd
          omega
        | cons a t => exact ⟨a, t, rfl⟩
      have ha : text.getD i ' ' = a := by
        rw [List.getD_eq_getElem?_getD]
        have h0 : text[i]? = (text.drop i)[0]? := by
          simp [List.getElem?_drop]
        rw [h0, hdrop]
        simp
      have hamem : a ∈ text := by
        have : a ∈ text.drop i := by rw [hdrop]; exact List.mem_cons_self a t
        exact List.drop_subset i text this
      have ht1 : text.drop (i + 1) = t := by
        rw [← List.tail_drop, hdrop]
        rfl
      simp only [List.find?_nil, Bool.false_eq_true, if_false, ha]
      rw [if_neg (hbt a hamem)]
      by_cases hi1 : i + 1 < text.length
      · rw [if_pos hi1]
        obtain ⟨b, u, htb⟩ : ∃ b u, t = b :: u := by
          cases hd : t with
          | nil =>
            have : text.drop (i + 1) = [] := by rw [ht1, hd]
            have := List.drop_eq_nil_iff.mp this
            omega
          | cons b u => exact ⟨b, u, rfl⟩
        have hb : text.getD (i + 1) ' ' = b := by
          rw [List.getD_eq_getElem?_getD]
          have h0 : text[i + 1]? = (text.drop (i + 1))[0]? := by
            simp [List.getElem?_drop]
          rw [h0, ht1, htb]
          simp
        rw [hb]
        by_cases hpair : ([a, b] : Str) ∈ INLINE_MARKERS
        · rw [if_pos hpair, ih (i + 2) (cs.bump [a, b]) (by omega)]
          have h2 : text.drop (i + 2) = u := by
            rw [← List.tail_drop, ht1, htb]
            rfl
          rw [h2, hdrop, htb, plainScan, if_pos hpair]
        · rw [if_neg hpair, ih (i + 1) cs (by omega)]
          rw [ht1, hdrop, htb, plainScan, if_neg hpair]
      · rw [if_neg hi1, ih (i + 1) cs (by omega)]
        have ht : t = [] := by
          have : text.drop (i + 1) = [] := List.drop_eq_nil_of_le (by omega)
          rw [ht1] at this
          exact this
        rw [ht1, ht, hdrop, ht]
        rfl
    · rw [if_neg hi, List.drop_eq_nil_of_le (by omega)]
      rfl

theorem parseFenceLine_of_noBT {line : Str} (h : NoBT line) : parseFenceLine line = none := by
  simp only [parseFenceLine]
  split
  · rfl
  · split
    · rfl
    · rename_i c tail heq
      have hc : c ∈ line := by
        have : c ∈ line.drop (line.takeWhile (fun x => decide (x = ' '))).length := by
          rw [heq]
          exact List.mem_cons_self c tail
        exact List.drop_subset _ line this
      have hne : ¬(c = bq ∨ c = '~') := by
        intro hcon
        rcases hcon with h2 | h2
        · exact (h c hc).1 h2
        · exact (h c hc).2 h2
      rw [if_neg hne]

theorem parseFenceSpansGo_none (total : Nat) :
    ∀ (lines : List Str) (off : Nat), (∀ l ∈ lines, parseFenceLine l = none) →
      parseFenceSpansGo total lines off none = [] := by
  intro lines
  induction lines with
  | nil => intro _ _; rfl
  | cons line rest ih =>
    intro off hl
    have h1 := hl line (List.mem_cons_self line rest)
    simp only [parseFenceSpansGo, h1]
    exact ih _ (fun l h => hl l (List.mem_cons_of_mem line h))

theorem parseFenceSpans_of_noBT {text : Str} (h : NoBT text) : parseFenceSpans text = [] := by
  unfold parseFenceSpans
  apply parseFenceSpansGo_none
  intro l hl
  exact parseFenceLine_of_noBT (fun c hc => h c (mem_splitLines_chars text l hl c hc))

theorem markerCounts_plain {text : Str} (h : NoBT text) :
    markerCountsOutsideCode text = plainScan text MarkerCounts.zero := by
  unfold markerCountsOutsideCode
  rw [parseFenceSpans_of_noBT h,
    markerScanGo_plain text (fun c hc => (h c hc).1) (text.length + 1) 0 _ (by omega),
    List.drop_zero]

end Spec2Proof

namespace Spec2Proof

/-- Every inline marker is a doubled character. -/
theorem marker_shape {m : Str} (hm : m ∈ INLINE_MARKERS) : ∃ c, m = [c, c] := by
  simp only [INLINE_MARKERS, mBold, mUnder, mStrike, mSpoiler, List.mem_cons,
    List.not_mem_nil, or_false] at hm
  rcases hm with h | h | h | h <;> exact ⟨_, h⟩

theorem marker_double {a b : Char} (h : ([a, b] : Str) ∈ INLINE_MARKERS) : b = a := by
  obtain ⟨c, hc⟩ := marker_shape h
  simp only [List.cons.injEq, and_true] at hc
  obtain ⟨h1, h2⟩ := hc
  rw [h1, h2]

/-- Polymorphic two-step list induction. -/
theorem twoStepRec {α : Type} {P : List α → Prop} (h0 : P []) (h1 : ∀ a, P [a])
    (h2 : ∀ a b l, P l → P (b :: l) → P (a :: b :: l)) : ∀ l, P l := by
  have key : ∀ (n : Nat) (l : List α), l.length ≤ n → P l := by
    intro n
    induction n with
    | zero =>
      intro l hl
      have hnil : l = [] := List.length_eq_zero.mp (Nat.le_zero.mp hl)
      subst hnil
      exact h0
    | succ n ih =>
      intro l hl
      match l with
      | [] => exact h0
      | [a] => exact h1 a
      | a :: b :: rest =>
        have hr : rest.length ≤ n := by simp at hl; omega
        have hbr : (b :: rest).length ≤ n := by simp at hl ⊢; omega
        exact h2 a b rest (ih rest (by omega)) (ih _ hbr)
  exact fun l => key l.length l (le_refl _)

/-- Appending a doubled marker to any text bumps exactly that marker's
greedy count: the scan can never pair the first appended character with a
preceding one without having paired the preceding ones among themselves. -/
theorem plainScan_append_pair (c : Char) (hc : ([c, c] : Str) ∈ INLINE_MARKERS) :
    ∀ (T : Str) (cs : MarkerCounts),
      plainScan (T ++ [c, c]) cs = (plainScan T cs).bump [c, c] := by
  intro T
  induction T using twoStepRec with
  | h0 =>
    intro cs
    show plainScan [c, c] cs = (plainScan [] cs).bump [c, c]
    rw [plainScan.eq_3, if_pos hc]
    rfl
  | h1 a =>
    intro cs
    show plainScan (a :: c :: [c]) cs = (plainScan [a] cs).bump [c, c]
    rw [plainScan.eq_3]
    by_cases hac : ([a, c] : Str) ∈ INLINE_MARKERS
    · rw [if_pos hac]
      have hca : c = a := marker_double hac
      subst hca
      rfl
    · rw [if_neg hac, plainScan.eq_3, if_pos hc]
      rfl
  | h2 a b l ihl ihbl =>
    intro cs
    show plainScan (a :: b :: (l ++ [c, c])) cs = (plainScan (a :: b :: l) cs).bump [c, c]
    rw [plainScan.eq_3, plainScan.eq_3]
    by_cases hab : ([a, b] : Str) ∈ INLINE_MARKERS
    · rw [if_pos hab, if_pos hab, ihl]
    · rw [if_neg hab, if_neg hab]
      exact ihbl cs

theorem plainScan_append_flatten :
    ∀ (L : List Str), (∀ m ∈ L, m ∈ INLINE_MARKERS) →
      ∀ (T : Str) (cs : MarkerCounts),
        plainScan (T ++ L.flatten) cs = L.foldl MarkerCounts.bump (plainScan T cs) := by
  intro L
  induction L with
  | nil =>
    intro _ T cs
    rw [List.flatten_nil, List.append_nil]
    rfl
  | cons m L ih =>
    intro hL T cs
    obtain ⟨c, hcm⟩ := marker_shape (hL m (List.mem_cons_self m L))
    have hm : m ∈ INLINE_MARKERS := hL m (List.mem_cons_self m L)
    rw [List.flatten_cons, ← List.append_assoc, List.foldl_cons,
      ih (fun x hx => hL x (List.mem_cons_of_mem m hx)) (T ++ m) cs]
    congr 1
    subst hcm
    exact plainScan_append_pair c hm T cs

/-- A text without tildes never counts a strikethrough marker. -/
theorem plainScan_strike (T : Str) (hT : ∀ c ∈ T, c ≠ '~') :
    ∀ cs : MarkerCounts, (plainScan T cs).strike = cs.strike := by
  induction T using twoStepRec with
  | h0 => intro cs; rfl
  | h1 a => intro cs; rfl
  | h2 a b l ihl ihbl =>
    intro cs
    rw [plainScan.eq_3]
    by_cases hab : ([a, b] : Str) ∈ INLINE_MARKERS
    · rw [if_pos hab]
      have hl : ∀ c ∈ l, c ≠ '~' := fun c hc =>
        hT c (List.mem_cons_of_mem a (List.mem_cons_of_mem b hc))
      rw [ihl hl]
      have hne : ([a, b] : Str) ≠ mStrike := by
        intro hcon
        have ha : a = '~' := by
          have := congrArg (fun l => l.getD 0 ' ') hcon
          simpa [mStrike] using this
        exact hT a (List.mem_cons_self a _) ha
      unfold MarkerCounts.bump
      split_ifs with w1 w2 w3 w4 <;> first | rfl | exact absurd w3 hne
    · rw [if_neg hab]
      exact ihbl (fun c hc => hT c (List.mem_cons_of_mem a hc)) cs

/-- The markers of odd parity, in marker order. -/
def oddMarkers (cs : MarkerCounts) : List Str :=
  INLINE_MARKERS.filter (fun m => cs.get m % 2 ≠ 0)

theorem findUnclosedMarkers_eq (t : Str) :
    findUnclosedMarkers t = oddMarkers (markerCountsOutsideCode t) := rfl

theorem oddMarkers_nil {cs : MarkerCounts} (h : oddMarkers cs = []) :
    ∀ m ∈ INLINE_MARKERS, cs.get m % 2 = 0 := by
  intro m hm
  have := List.filter_eq_nil_iff.mp h m hm
  simpa using this

theorem get_mBold (cs : MarkerCounts) : cs.get mBold = cs.bold := rfl

theorem get_mUnder (cs : MarkerCounts) : cs.get mUnder = cs.under := rfl

theorem get_mStrike (cs : MarkerCounts) : cs.get mStrike = cs.strike := rfl

theorem get_mSpoiler (cs : MarkerCounts) : cs.get mSpoiler = cs.spoiler := rfl

theorem bump_bold (cs : MarkerCounts) (m : Str) :
    (cs.bump m).bold = cs.bold + if m = mBold then 1 else 0 := by
  unfold MarkerCounts.bump
  split_ifs with w1 w2 w3 w4 <;> simp_all

theorem bump_under (cs : MarkerCounts) (m : Str) :
    (cs.bump m).under = cs.under + if m = mUnder then 1 else 0 := by
  unfold MarkerCounts.bump
  split_ifs with w1 w2 w3 w4 <;> simp_all +decide

theorem bump_strike (cs : MarkerCounts) (m : Str) :
    (cs.bump m).strike = cs.strike + if m = mStrike then 1 else 0 := by
  unfold MarkerCounts.bump
  split_ifs with w1 w2 w3 w4 <;> simp_all +decide

theorem bump_spoiler (cs : MarkerCounts) (m : Str) :
    (cs.bump m).spoiler = cs.spoiler + if m = mSpoiler then 1 else 0 := by
  unfold MarkerCounts.bump
  split_ifs with w1 w2 w3 w4 <;> simp_all +decide

theorem foldl_bump_bold : ∀ (L : List Str) (cs : MarkerCounts),
    (L.foldl MarkerCounts.bump cs).bold = cs.bold + L.count mBold := by
  intro L
  induction L with
  | nil => intro cs; simp
  | cons m L ih =>
    intro cs
    rw [List.foldl_cons, ih, bump_bold, List.count_cons]
    simp only [beq_iff_eq]
    by_cases hm : m = mBold <;> simp [hm] <;> omega

theorem foldl_bump_under : ∀ (L : List Str) (cs : MarkerCounts),
    (L.foldl MarkerCounts.bump cs).under = cs.under + L.count mUnder := by
  intro L
  induction L with
  | nil => intro cs; simp
  | cons m L ih =>
    intro cs
    rw [List.foldl_cons, ih, bump_under, List.count_cons]
    simp only [beq_iff_eq]
    by_cases hm : m = mUnder <;> simp [hm] <;> omega

theorem foldl_bump_strike : ∀ (L : List Str) (cs : MarkerCounts),
    (L.foldl MarkerCounts.bump cs).strike = cs.strike + L.count mStrike := by
  intro L
  induction L with
  | nil => intro cs; simp
  | cons m L ih =>
    intro cs
    rw [List.foldl_cons, ih, bump_strike, List.count_cons]
    simp only [beq_iff_eq]
    by_cases hm : m = mStrike <;> simp [hm] <;> omega

theorem foldl_bump_spoiler : ∀ (L : List Str) (cs : MarkerCounts),
    (L.foldl MarkerCounts.bump cs).spoiler = cs.spoiler + L.count mSpoiler := by
  intro L
  induction L with
  | nil => intro cs; simp
  | cons m L ih =>
    intro cs
    rw [List.foldl_cons, ih, bump_spoiler, List.count_cons]
    simp only [beq_iff_eq]
    by_cases hm : m = mSpoiler <;> simp [hm] <;> omega

theorem count_oddMarkers_odd {cs : MarkerCounts} {m : Str}
    (h : cs.get m % 2 ≠ 0) : (oddMarkers cs).count m = INLINE_MARKERS.count m :=
  List.count_filter (by simpa using h)

theorem count_oddMarkers_even {cs : MarkerCounts} {m : Str}
    (h : cs.get m % 2 = 0) : (oddMarkers cs).count m = 0 := by
  apply List.count_eq_zero.mpr
  intro hmem
  have h2 := (List.mem_filter.mp hmem).2
  simp only [decide_not, Bool.not_eq_true', decide_eq_false_iff_not, not_not] at h2
  exact absurd h2 (by simpa using h)

theorem mem_inline_markers {m : Str} (hm : m ∈ INLINE_MARKERS) :
    m = mBold ∨ m = mUnder ∨ m = mStrike ∨ m = mSpoiler := by
  simpa [INLINE_MARKERS] using hm

/-- Appending the odd markers (in any processing order) makes every
parity even. -/
theorem fixup_even (cs : MarkerCounts) :
    ∀ m ∈ INLINE_MARKERS,
      ((oddMarkers cs).reverse.foldl MarkerCounts.bump cs).get m % 2 = 0 := by
  have hcount : ∀ m2 ∈ INLINE_MARKERS,
      (oddMarkers cs).reverse.count m2 = if cs.get m2 % 2 = 0 then 0 else 1 := by
    intro m2 hm2
    rw [List.count_reverse]
    by_cases h : cs.get m2 % 2 = 0
    · rw [if_pos h, count_oddMarkers_even h]
    · rw [if_neg h, count_oddMarkers_odd h]
      rcases mem_inline_markers hm2 with h2 | h2 | h2 | h2 <;> subst h2 <;> decide
  intro m hm
  rcases mem_inline_markers hm with h2 | h2 | h2 | h2 <;> subst h2
  · rw [get_mBold, foldl_bump_bold, hcount mBold (by decide), get_mBold]
    by_cases h : cs.bold % 2 = 0 <;> simp [h] <;> omega
  · rw [get_mUnder, foldl_bump_under, hcount mUnder (by decide), get_mUnder]
    by_cases h : cs.under % 2 = 0 <;> simp [h] <;> omega
  · rw [get_mStrike, foldl_bump_strike, hcount mStrike (by decide), get_mStrike]
    by_cases h : cs.strike % 2 = 0 <;> simp [h] <;> omega
  · rw [get_mSpoiler, foldl_bump_spoiler, hcount mSpoiler (by decide), get_mSpoiler]
    by_cases h : cs.spoiler % 2 = 0 <;> simp [h] <;> omega

end Spec2Proof

namespace Spec2Proof

theorem ftfcp_of_noBT {cur : Str} (h : NoBT cur) : findTrailingFenceCloserPos cur = -1 := by
  simp only [findTrailingFenceCloserPos]
  split
  · rfl
  · rw [parseFenceLine_of_noBT (noBT_subset (List.drop_subset _ cur) h)]
    simp

theorem unclosed_strike_not {cur : Str} (h : NoBT cur) : mStrike ∉ findUnclosedMarkers cur := by
  rw [findUnclosedMarkers_eq]
  intro hmem
  have h2 := (List.mem_filter.mp hmem).2
  rw [markerCounts_plain h] at h2
  have h3 : (plainScan cur MarkerCounts.zero).strike = 0 :=
    plainScan_strike cur (fun c hc => (h c hc).2) MarkerCounts.zero
  simp only [oddMarkers, get_mStrike, h3] at h2
  simp at h2

theorem unclosed_noBT {cur : Str} (h : NoBT cur) :
    ∀ m ∈ findUnclosedMarkers cur, NoBT m := by
  intro m hm
  have hmk : m ∈ INLINE_MARKERS := (List.mem_filter.mp hm).1
  rcases mem_inline_markers hmk with h2 | h2 | h2 | h2 <;> subst h2
  · exact (by decide : NoBT mBold)
  · exact (by decide : NoBT mUnder)
  · exact absurd hm (unclosed_strike_not h)
  · exact (by decide : NoBT mSpoiler)

theorem unclosed_flatten_noBT {cur : Str} (h : NoBT cur) :
    NoBT (findUnclosedMarkers cur).reverse.flatten := by
  intro c hc
  obtain ⟨m, hmrev, hcm⟩ := List.mem_flatten.mp hc
  exact unclosed_noBT h m (List.mem_reverse.mp hmrev) c hcm

theorem stepAppend_eq {cur : Str} (h : NoBT cur) (unclosed : List Str) :
    rebalanceStepAppend cur unclosed = cur ++ unclosed.reverse.flatten := by
  unfold rebalanceStepAppend
  rw [ftfcp_of_noBT h, if_neg (by decide)]

theorem stepAppend_noBT {cur : Str} (h : NoBT cur) :
    NoBT (rebalanceStepAppend cur (findUnclosedMarkers cur)) := by
  rw [stepAppend_eq h]
  exact noBT_append h (unclosed_flatten_noBT h)

/-- Appending the closers of all unclosed markers of a backtick-free,
tilde-free fragment makes every marker parity even. -/
theorem step_even {cur : Str} (h : NoBT cur) :
    ∀ m ∈ INLINE_MARKERS,
      (markerCountsOutsideCode
        (rebalanceStepAppend cur (findUnclosedMarkers cur))).get m % 2 = 0 := by
  intro m hm
  rw [stepAppend_eq h,
    markerCounts_plain (noBT_append h (unclosed_flatten_noBT h)),
    plainScan_append_flatten ((findUnclosedMarkers cur).reverse)
      (fun m2 hm2 => (List.mem_filter.mp (List.mem_reverse.mp hm2)).1) cur MarkerCounts.zero,
    ← markerCounts_plain h, findUnclosedMarkers_eq]
  exact fixup_even (markerCountsOutsideCode cur) m hm

theorem getD_set_self_str {l : List Str} {i : Nat} {x : Str} (h : i < l.length) :
    (l.set i x).getD i [] = x := by
  rw [List.getD_eq_getElem _ _ (by simpa using h)]
  exact List.getElem_set_self (by simpa using h)

theorem getD_set_ne_str {l : List Str} {i j : Nat} {x : Str} (h : i ≠ j) :
    (l.set i x).getD j [] = l.getD j [] := by
  simp [List.getD_eq_getElem?_getD, List.getElem?_set_ne h]

theorem noBT_getD {adj : List Str} (h : ∀ ch ∈ adj, NoBT ch) (i : Nat) :
    NoBT (adj.getD i []) := by
  rcases Nat.lt_or_ge i adj.length with hi | hi
  · rw [List.getD_eq_getElem _ _ hi]
    exact h _ (List.getElem_mem hi)
  · rw [List.getD_eq_getElem?_getD, List.getElem?_eq_none (by simpa using hi)]
    exact noBT_nil

theorem noBT_all_set {adj : List Str} {i : Nat} {x : Str} (h : ∀ ch ∈ adj, NoBT ch)
    (hx : NoBT x) : ∀ ch ∈ adj.set i x, NoBT ch := by
  intro ch hc
  rcases List.mem_or_eq_of_mem_set hc with h2 | h2
  · exact h ch h2
  · exact h2 ▸ hx

theorem strip_subset (t m : Str) : stripOrphanedMarkerOutsideCode t m ⊆ t := by
  simp only [stripOrphanedMarkerOutsideCode]
  split
  · exact fun c hc => hc
  · split
    · intro c hc
      rcases List.mem_append.mp hc with h | h
      · exact List.take_subset _ _ h
      · exact List.drop_subset _ _ h
    · intro c hc
      rcases List.mem_append.mp hc with h | h
      · exact List.take_subset _ _ h
      · exact List.drop_subset _ _ h

end Spec2Proof

namespace Spec2Proof

theorem stripScanGo_length (m : Str) : ∀ (fuel j : Nat) (adj : List Str),
    (stripScanGo m fuel j adj).length = adj.length := by
  intro fuel
  induction fuel with
  | zero => intro j adj; rfl
  | succ fuel ih =>
    intro j adj
    simp only [stripScanGo]
    split
    · split
      · simp
      · exact ih (j + 1) adj
    · rfl

theorem stripScanGo_getD_lt (m : Str) : ∀ (fuel j k : Nat) (adj : List Str), k < j →
    (stripScanGo m fuel j adj).getD k [] = adj.getD k [] := by
  intro fuel
  induction fuel with
  | zero => intro j k adj _; rfl
  | succ fuel ih =>
    intro j k adj hk
    simp only [stripScanGo]
    split
    · split
      · exact getD_set_ne_str (by omega)
      · exact ih (j + 1) k adj (by omega)
    · rfl

theorem stripScanGo_noBT (m : Str) : ∀ (fuel j : Nat) (adj : List Str),
    (∀ ch ∈ adj, NoBT ch) → ∀ ch ∈ stripScanGo m fuel j adj, NoBT ch := by
  intro fuel
  induction fuel with
  | zero => intro j adj h; exact h
  | succ fuel ih =>
    intro j adj h
    simp only [stripScanGo]
    split
    · split
      · exact noBT_all_set h (noBT_subset (strip_subset _ _) (noBT_getD h j))
      · exact ih (j + 1) adj h
    · exact h

theorem foldlStrip_length (s : Nat) : ∀ (L adj : List Str),
    (L.foldl (fun a m => stripScanGo m a.length s a) adj).length = adj.length := by
  intro L
  induction L with
  | nil => intro adj; rfl
  | cons m L ih =>
    intro adj
    rw [List.foldl_cons, ih, stripScanGo_length]

theorem foldlStrip_getD_lt (s : Nat) : ∀ (L adj : List Str) (k : Nat), k < s →
    (L.foldl (fun a m => stripScanGo m a.length s a) adj).getD k [] = adj.getD k [] := by
  intro L
  induction L with
  | nil => intro adj k _; rfl
  | cons m L ih =>
    intro adj k hk
    rw [List.foldl_cons, ih _ k hk, stripScanGo_getD_lt m _ s k adj hk]

theorem foldlStrip_noBT (s : Nat) : ∀ (L adj : List Str), (∀ ch ∈ adj, NoBT ch) →
    ∀ ch ∈ L.foldl (fun a m => stripScanGo m a.length s a) adj, NoBT ch := by
  intro L
  induction L with
  | nil => intro adj h; exact h
  | cons m L ih =>
    intro adj h
    rw [List.foldl_cons]
    exact ih _ (stripScanGo_noBT m _ s adj h)

theorem rebalanceGo_length : ∀ (fuel i : Nat) (adj : List Str),
    (rebalanceGo fuel i adj).length = adj.length := by
  intro fuel
  induction fuel with
  | zero => intro i adj; rfl
  | succ fuel ih =>
    intro i adj
    simp only [rebalanceGo]
    split
    · split
      · exact ih (i + 1) adj
      · rw [ih, foldlStrip_length]
        simp
    · rfl

/-- Even parity of all four inline markers, outside code, in a fragment. -/
def EvenAt (t : Str) : Prop :=
  ∀ m ∈ INLINE_MARKERS, (markerCountsOutsideCode t).get m % 2 = 0

theorem evenAt_of_unclosed_nil {t : Str} (h : findUnclosedMarkers t = []) : EvenAt t := by
  have h0 : oddMarkers (markerCountsOutsideCode t) = [] := by
    rw [← findUnclosedMarkers_eq]
    exact h
  exact fun m hm => oddMarkers_nil h0 m hm

/-- Main loop invariant of the marker rebalancer: on a backtick-free,
tilde-free chunk list, every chunk before the last ends up with even
parity for all four markers. -/
theorem rebalanceGo_even : ∀ (fuel i : Nat) (adj : List Str),
    adj.length ≤ i + 1 + fuel →
    (∀ ch ∈ adj, NoBT ch) →
    (∀ j, j < i → EvenAt (adj.getD j [])) →
    ∀ k, k + 1 < adj.length → EvenAt ((rebalanceGo fuel i adj).getD k []) := by
  intro fuel
  induction fuel with
  | zero =>
    intro i adj hf hbt hev k hk
    rw [rebalanceGo]
    exact hev k (by omega)
  | succ fuel ih =>
    intro i adj hf hbt hev k hk
    simp only [rebalanceGo]
    split
    · rename_i hi
      split
      · rename_i hu
        refine ih (i + 1) adj (by omega) hbt (fun j hj => ?_) k hk
        rcases Nat.lt_or_ge j i with h2 | h2
        · exact hev j h2
        · have hji : j = i := by omega
          subst hji
          exact evenAt_of_unclosed_nil hu
      · rename_i hu
        have hlen1 : (adj.set i (rebalanceStepAppend (adj.getD i [])
            (findUnclosedMarkers (adj.getD i [])))).length = adj.length := by simp
        refine ih (i + 1) _ ?_ ?_ ?_ k ?_
        · rw [foldlStrip_length, hlen1]
          omega
        · exact foldlStrip_noBT _ _ _ (noBT_all_set hbt (stepAppend_noBT (noBT_getD hbt i)))
        · intro j hj
          rw [foldlStrip_getD_lt _ _ _ j hj]
          rcases Nat.lt_or_ge j i with h2 | h2
          · rw [getD_set_ne_str (by omega)]
            exact hev j h2
          · have hji : j = i := by omega
            rw [hji, getD_set_self_str (by omega)]
            exact fun m hm => step_even (noBT_getD hbt i) m hm
        · rw [foldlStrip_length, hlen1]
          omega
    · rename_i hi
      exact hev k (by omega)

theorem rebalanceInlineFormatting_even {chunks : List Str}
    (h : ∀ ch ∈ chunks, NoBT ch) :
    ∀ k, k + 1 < (rebalanceInlineFormatting chunks).length →
      EvenAt ((rebalanceInlineFormatting chunks).getD k []) := by
  intro k hk
  by_cases hlen : chunks.length ≤ 1
  · simp only [rebalanceInlineFormatting, if_pos hlen] at hk
    omega
  · simp only [rebalanceInlineFormatting, if_neg hlen] at hk ⊢
    have hlen2 := rebalanceGo_length chunks.length 0 chunks
    rw [hlen2] at hk
    exact rebalanceGo_even chunks.length 0 chunks (by omega) h
      (fun j hj => absurd hj (Nat.not_lt_zero j)) k hk

end Spec2Proof

namespace Spec2Proof

/-- All chunks of the list are backtick-free and tilde-free. -/
def AllNoBT (l : List Str) : Prop := ∀ ch ∈ l, NoBT ch

theorem allNoBT_set {adj : List Str} {i : Nat} {x : Str} (h : AllNoBT adj) (hx : NoBT x) :
    AllNoBT (adj.set i x) := noBT_all_set h hx

/-- Invariant of the chunking pass on backtick-free, tilde-free input: all
pushed chunks and the current buffer stay backtick-free and tilde-free, and
no fence ever opens. -/
def BtInv (st : ChunkState) : Prop :=
  AllNoBT st.chunks ∧ NoBT st.current ∧ st.openFence = none

theorem flush_bt (mc : Nat) (st : ChunkState) (h : BtInv st) : BtInv (flush mc st) := by
  obtain ⟨hch, hcur, hof⟩ := h
  unfold flush
  split
  · exact ⟨hch, hcur, hof⟩
  · split
    · refine ⟨?_, ?_, hof⟩
      · apply apply_ite_prop
        · intro f hf
          rcases List.mem_append.mp hf with h1 | h1
          · exact hch f h1
          · have h2 : f = trimEnd (st.current.take st.lastParaBreakEnd.toNat) := by
              simpa using h1
            subst h2
            exact noBT_subset (fun c hc => List.take_subset _ _ (trimEnd_subset _ hc)) hcur
        · exact hch
      · exact noBT_subset (fun c hc =>
          List.drop_subset _ _ ((List.dropWhile_sublist _).subset hc)) hcur
    · split
      · refine ⟨?_, ?_, hof⟩
        · apply apply_ite_prop
          · intro f hf
            rcases List.mem_append.mp hf with h1 | h1
            · exact hch f h1
            · have h2 : f = trimEnd (st.current.take st.lastStructuralBoundary.toNat) := by
                simpa using h1
              subst h2
              exact noBT_subset (fun c hc => List.take_subset _ _ (trimEnd_subset _ hc)) hcur
          · exact hch
        · exact noBT_subset (fun c hc =>
            List.drop_subset _ _ ((List.dropWhile_sublist _).subset hc)) hcur
      · rw [hof]
        have hpay : closeFenceIfNeeded st.current none = st.current := rfl
        refine ⟨?_, ?_, rfl⟩
        · rw [hpay]
          apply apply_ite_prop
          · intro f hf
            rcases List.mem_append.mp hf with h1 | h1
            · exact hch f h1
            · have h2 : f = st.current := by simpa using h1
              subst h2
              exact hcur
          · exact hch
        · exact noBT_nil

theorem btStep (seg delim : Str) (st1 : ChunkState) (h1 : BtInv st1)
    (hseg : NoBT seg) (hdelim : NoBT delim) (lines1 lines2 : Nat) (c : Prop) [Decidable c] :
    BtInv (if c then
        { st1 with current := st1.current ++ (delim ++ seg), currentLines := lines1 }
      else { st1 with current := seg, currentLines := lines2 }) := by
  obtain ⟨hch, hcur, hof⟩ := h1
  apply apply_ite_prop
  · exact ⟨hch, noBT_append hcur (noBT_append hdelim hseg), hof⟩
  · exact ⟨hch, hseg, hof⟩

theorem processSegments_bt (mc cl : Nat) (ll : Option Nat) :
    ∀ (segs : List Str), (∀ seg ∈ segs, NoBT seg) →
      ∀ (segIndex : Nat) (st : ChunkState), BtInv st →
        BtInv (processSegments mc cl ll segs segIndex st) := by
  intro segs
  induction segs with
  | nil => intro _ _ st h; exact h
  | cons seg rest ih =>
    intro hsegs segIndex st h
    simp only [processSegments]
    apply ih (fun s hs => hsegs s (List.mem_cons_of_mem seg hs))
    exact btStep seg _ _ (apply_ite_prop (flush_bt mc st h) h)
      (hsegs seg (List.mem_cons_self seg rest))
      (apply_ite_prop noBT_nil (apply_ite_prop (by decide) noBT_nil)) _ _ _

theorem processLine_bt (mc : Nat) (ml : Option Nat) (st : ChunkState) (line : Str)
    (hline : NoBT line) (h : BtInv st) : BtInv (processLine mc ml st line) := by
  obtain ⟨hch, hcur, hof⟩ := h
  have hfence : parseFenceLine line = none := parseFenceLine_of_noBT hline
  have hsps : ∀ (cl : Nat) (ll : Option Nat) (lim : Nat) (pw : Bool),
      BtInv (processSegments mc cl ll (splitLongLine line lim pw) 0 st) := by
    intro cl ll lim pw
    exact processSegments_bt mc cl ll _
      (fun seg hs c hc => hline c (splitLongLine_chars hs hc)) 0 st ⟨hch, hcur, hof⟩
  simp only [processLine, hfence, hof, Option.isSome_none]
  refine ⟨?_, ?_, ?_⟩
  · simp only [ChunkState.chunks_setFence, ChunkState.chunks_ite, ChunkState.chunks_setPara,
      ChunkState.chunks_setStruct, ite_self]
    exact (hsps _ _ _ _).1
  · simp only [ChunkState.current_setFence, ChunkState.current_ite, ChunkState.current_setPara,
      ChunkState.current_setStruct, ite_self]
    exact (hsps _ _ _ _).2.1
  · simp only [ChunkState.openFence_setFence]

theorem foldl_processLine_bt (mc : Nat) (ml : Option Nat) :
    ∀ (lines : List Str), (∀ l ∈ lines, NoBT l) →
      ∀ (st : ChunkState), BtInv st → BtInv (lines.foldl (processLine mc ml) st) := by
  intro lines
  induction lines with
  | nil => intro _ st h; exact h
  | cons line rest ih =>
    intro hlines st h
    exact ih (fun l hl => hlines l (List.mem_cons_of_mem line hl))
      (processLine mc ml st line)
      (processLine_bt mc ml st line (hlines line (List.mem_cons_self line rest)) h)

theorem chunkCore_bt (text : Str) (mc : Nat) (ml : Option Nat) (h : NoBT text) :
    AllNoBT (chunkCore text mc ml) := by
  have hinv : BtInv ((splitLines text).foldl (processLine mc ml) ChunkState.init) := by
    apply foldl_processLine_bt
    · intro l hl c hc
      exact h c (mem_splitLines_chars text l hl c hc)
    · exact ⟨fun f hf => absurd hf (List.not_mem_nil f), noBT_nil, rfl⟩
  obtain ⟨hch, hcur, hof⟩ := hinv
  simp only [chunkCore]
  split
  · rw [hof]
    have hpay : closeFenceIfNeeded
        ((splitLines text).foldl (processLine mc ml) ChunkState.init).current none =
        ((splitLines text).foldl (processLine mc ml) ChunkState.init).current := rfl
    rw [hpay]
    apply apply_ite_prop
    · intro f hf
      rcases List.mem_append.mp hf with h1 | h1
      · exact hch f h1
      · have h2 := List.mem_singleton.mp h1
        subst h2
        exact hcur
    · exact hch
  · exact hch

theorem italicsGo_bt : ∀ (fuel i : Nat) (adj : List Str), AllNoBT adj →
    AllNoBT (italicsGo fuel i adj) := by
  intro fuel
  induction fuel with
  | zero => intro i adj h; exact h
  | succ fuel ih =>
    intro i adj h
    simp only [italicsGo]
    split
    · split
      · exact apply_ite_prop (allNoBT_set h (noBT_append (noBT_getD h i) (by decide))) h
      · apply ih
        have h1 : AllNoBT (if (trimEnd (adj.getD i [])).getLast? ≠ some '_' then
            adj.set i (adj.getD i [] ++ ['_']) else adj) :=
          apply_ite_prop (allNoBT_set h (noBT_append (noBT_getD h i) (by decide))) h
        apply apply_ite_prop
        · apply allNoBT_set h1
          intro c hc
          rcases List.mem_append.mp hc with h2 | h2
          · exact noBT_getD h1 (i + 1) c (List.take_subset _ _ h2)
          · rcases List.mem_cons.mp h2 with h3 | h3
            · subst h3
              exact ⟨by decide, by decide⟩
            · exact noBT_getD h1 (i + 1) c (List.drop_subset _ _ h3)
        · exact h1
    · exact h

theorem rebalanceReasoningItalics_bt (source : Str) {chunks : List Str}
    (h : AllNoBT chunks) : AllNoBT (rebalanceReasoningItalics source chunks) := by
  unfold rebalanceReasoningItalics
  split
  · exact h
  · split
    · exact italicsGo_bt _ 0 chunks h
    · exact h

end Spec2Proof

namespace Spec2Proof

set_option maxRecDepth 10000 in
/-- C2 counterexample: three violations of the claim, each forcing one
restriction of the amended statement.
(1) Last fragment: with `maxChars = 4` the input `"aaaa\n**bb"` produces
`["aaaa", "**bb"]`; the rebalancer walks only indices `i < length - 1`, so
the last fragment keeps a single `**` outside code - an odd count.
(2) Backticks, non-last fragment: with `maxChars = 4` the input
"**\x60a\nxx" produces ["**\x60a**", "xx"]; the appended closers land
after the unmatched backtick, inside the inline-code span, so the parity
scan counts one `**` outside code in the first (non-last) fragment.
(3) Tildes, non-last fragment: with `maxChars = 12` the input
`"**a\n~~~\nabcdefghij"` yields the first fragment `"**a\n~~~**\n~~~"`
(of four): the closers are inserted before the trailing fence-closer line,
inside the tilde fence span, leaving one `**` outside code - odd parity on
a non-last fragment. -/
theorem c2_marker_parity_counterexample :
    ((chunkDiscordText (str "aaaa\n**bb") (some 4) none).length = 2 ∧
      (markerCountsOutsideCode
        ((chunkDiscordText (str "aaaa\n**bb") (some 4) none).getD 1 [])).get mBold % 2 = 1) ∧
    ((chunkDiscordText (str "**`a\nxx") (some 4) none).length = 2 ∧
      (markerCountsOutsideCode
        ((chunkDiscordText (str "**`a\nxx") (some 4) none).getD 0 [])).get mBold % 2 = 1) ∧
    ((chunkDiscordText (str "**a\n~~~\nabcdefghij") (some 12) none).length = 4 ∧
      (markerCountsOutsideCode
        ((chunkDiscordText (str "**a\n~~~\nabcdefghij")
          (some 12) none).getD 0 [])).get mBold % 2 = 1) := by
  decide

/-- C2 amended: every restriction below is forced by a part of the
counterexample.  The last fragment is exempt (part 1: the rebalancer never
visits it); the input must be backtick-free (part 2: closers appended after
an unmatched backtick fall inside the inline-code span and are not counted)
and tilde-free (part 3: closers inserted before a trailing tilde
fence-closer line fall inside the fence span and are not counted).  Under
exactly those conditions the parity invariant holds: every fragment of
`chunkDiscordText` except possibly the last has an even occurrence count
outside code for each of the four inline markers. -/
theorem c2_marker_parity_amended (text : Str) (mc ml : Option Nat)
    (hbt : ∀ c ∈ text, c ≠ bq ∧ c ≠ '~') :
    ∀ k, k + 1 < (chunkDiscordText text mc ml).length →
      ∀ m ∈ INLINE_MARKERS,
        (markerCountsOutsideCode ((chunkDiscordText text mc ml).getD k [])).get m % 2 = 0 := by
  intro k hk
  by_cases hnil : text = []
  · subst hnil
    simp [chunkDiscordText] at hk
  · by_cases hsz : sizeOk text (max 1 (mc.getD 2000)) (ml.map (max 1)) = true
    · simp only [chunkDiscordText, if_neg hnil, if_pos hsz, List.length_singleton] at hk
      omega
    · simp only [chunkDiscordText, if_neg hnil, if_neg hsz] at hk ⊢
      exact rebalanceInlineFormatting_even
        (rebalanceReasoningItalics_bt text (chunkCore_bt text _ _ hbt)) k hk

theorem c2_marker_parity_witness :
    (∀ c ∈ str "**a\n**", c ≠ bq ∧ c ≠ '~') ∧
    0 + 1 < (chunkDiscordText (str "**a\n**") (some 3) none).length ∧
    (markerCountsOutsideCode
      ((chunkDiscordText (str "**a\n**") (some 3) none).getD 0 [])).get mBold % 2 = 0 :=
  ⟨by decide, by decide,
    c2_marker_parity_amended (str "**a\n**") (some 3) none (by decide) 0 (by decide)
      mBold (by decide)⟩

end Spec2Proof
